import Mathlib

/-!
Verification of the graph-algorithm core of `src/Assignment2/graph_algorithms.cpp`:
`is_empty`, `is_connected`, `connected_components`, `min_distance`, `dijkstras`
and `articulation_points`, as a shallow embedding over an explicit weighted-graph
data model.  The graph container (`weighted_graph.hpp`) and the traversal helper
`depth_first` (`easy_weighted_graph_algorithms.cpp`) are external collaborators
that are not part of this core; they are modelled from the specification's
Graph Accessor and Traversal Engine contracts.  Vertices are specialised to `Nat`
(the source is generic over any comparable, hashable vertex type).
-/

/-- The value `std::numeric_limits<int>::max()`: the sentinel standing for infinity. -/
def INT_MAX : Int := 2147483647

/-- Modelled from the spec: the Weighted Graph of the Graph Accessor
(`weighted_graph.hpp` is an external collaborator, not part of this core).
`verts` is the native enumeration order (`cbegin .. cend`); `edges` stores each
undirected weighted edge once, as an (endpoint, endpoint, weight) triple. -/
structure weighted_graph where
  verts : List Nat
  edges : List (Nat × Nat × Int)
deriving DecidableEq

/-- Does the edge entry `e` join the unordered pair {`u`, `v`}? -/
def samePair (e : Nat × Nat × Int) (u v : Nat) : Bool :=
  (e.1 == u && e.2.1 == v) || (e.1 == v && e.2.1 == u)

/-- Modelled from the spec: the Graph Accessor's adjacency test (symmetric,
because the stored edge joins an unordered pair). -/
def are_adjacent (g : weighted_graph) (u v : Nat) : Bool :=
  g.edges.any (fun e => samePair e u v)

/-- Modelled from the spec: the Graph Accessor's edge-weight lookup (undefined
when the pair is not adjacent; the model returns 0 there). -/
def get_edge_weight (g : weighted_graph) (u v : Nat) : Int :=
  ((g.edges.find? (fun e => samePair e u v)).map (fun e => e.2.2)).getD 0

/-- Modelled from the spec: the Graph Accessor's vertex count. -/
def num_vertices (g : weighted_graph) : Nat := g.verts.length

/-- Modelled from the spec: the Graph Accessor's neighbour enumeration,
as (neighbour, weight) pairs. -/
def neighbours (g : weighted_graph) (v : Nat) : List (Nat × Int) :=
  (g.verts.filter (fun w => are_adjacent g v w)).map
    (fun w => (w, get_edge_weight g v w))

/-- Modelled from the spec: the Graph Accessor's vertex insertion. -/
def add_vertex (g : weighted_graph) (v : Nat) : weighted_graph :=
  if v ∈ g.verts then g else { g with verts := g.verts ++ [v] }

/-- Modelled from the spec: the Graph Accessor's edge insertion between two
existing vertices (replacing any previous edge on the same unordered pair). -/
def add_edge (g : weighted_graph) (u v : Nat) (w : Int) : weighted_graph :=
  if u ∈ g.verts ∧ v ∈ g.verts then
    { g with edges := (g.edges.filter (fun e => !samePair e u v)) ++ [(u, v, w)] }
  else g

/-- Modelled from the spec: the Graph Accessor's vertex removal, deleting the
vertex and all of its incident edges. -/
def remove_vertex (g : weighted_graph) (v : Nat) : weighted_graph :=
  { verts := g.verts.filter (fun x => x != v),
    edges := g.edges.filter (fun e => e.1 != v && e.2.1 != v) }

/-- Modelled from the spec: the data-model invariants of the Weighted Graph —
the vertex collection is a set (no duplicates) and edges only connect existing
vertices. -/
def GraphWF (g : weighted_graph) : Prop :=
  g.verts.Nodup ∧ ∀ e ∈ g.edges, e.1 ∈ g.verts ∧ e.2.1 ∈ g.verts

instance : DecidablePred GraphWF := fun g => by
  unfold GraphWF; infer_instance

/-- One round of spreading reachability from a vertex set to adjacent vertices. -/
def reachStep (g : weighted_graph) (s : Finset Nat) : Finset Nat :=
  s ∪ (g.verts.filter (fun v => decide (∃ u ∈ s, are_adjacent g u v = true))).toFinset

/-- Modelled from the spec: the Traversal Engine's
`depth_first(graph, start) -> set_of_reached_vertices`
(`easy_weighted_graph_algorithms.cpp` is not under src/).  Its contract: the set
of vertices reachable from `start` via edges, including `start` itself; only the
set is observable.  The model iterates one spreading round per vertex, which
reaches the fixed point. -/
def depth_first (g : weighted_graph) (start : Nat) : Finset Nat :=
  (reachStep g)^[g.verts.length] {start}

/-- Function `is_empty` from graph_algorithms.cpp: the graph is empty if no vertices exist. -/
def is_empty (g : weighted_graph) : Bool := num_vertices g == 0

/-- Function `is_connected` from graph_algorithms.cpp: true if the graph is empty, or a
depth-first traversal from the first vertex returns every vertex in the graph. -/
def is_connected (g : weighted_graph) : Bool :=
  match g.verts with
  | [] => true
  | v :: _ => (depth_first g v).card == num_vertices g

/-- The component graph built by `connected_components` for one component with
vertex set `s`: add every component vertex, then rebuild all of their edges via
the neighbour enumeration.  (The C++ iterates the traversal's `unordered_set` in
an unspecified order; the model uses native vertex order, on which none of the
observable claims depend.) -/
def buildComponent (g : weighted_graph) (s : Finset Nat) : weighted_graph :=
  let vs := g.verts.filter (fun v => decide (v ∈ s))
  let base := vs.foldl add_vertex { verts := [], edges := [] }
  vs.foldl (fun h v => (neighbours g v).foldl (fun h2 p => add_edge h2 v p.1 p.2) h) base

/-- The vertex loop of `connected_components`: pick each yet-unvisited vertex,
traverse from it, emit the component graph, and mark the whole component visited. -/
def ccLoop (g : weighted_graph) : List Nat → Finset Nat → List weighted_graph
  | [], _ => []
  | u :: rest, visited =>
    if u ∈ visited then ccLoop g rest visited
    else buildComponent g (depth_first g u) :: ccLoop g rest (visited ∪ depth_first g u)

/-- Function `connected_components` from graph_algorithms.cpp. -/
def connected_components (g : weighted_graph) : List weighted_graph :=
  ccLoop g g.verts ∅

/-- The distance map `std::map<vertex, int>`, in key-insertion order. -/
abbrev DMap := List (Nat × Int)

/-- Operation `std::map::insert`: no effect when the key is already present. -/
def mapInsert (m : DMap) (k : Nat) (v : Int) : DMap :=
  if m.any (fun p => p.1 == k) then m else m ++ [(k, v)]

/-- Operation `std::map::operator[]` followed by assignment: update, or insert when absent. -/
def mapSet (m : DMap) (k : Nat) (v : Int) : DMap :=
  if m.any (fun p => p.1 == k) then m.map (fun p => if p.1 == k then (k, v) else p)
  else m ++ [(k, v)]

/-- Operation `std::map::at` (throws on a missing key; the model returns 0 there — in the
algorithm every queried key has been initialised). -/
def mapAt (m : DMap) (k : Nat) : Int :=
  ((m.find? (fun p => p.1 == k)).map (fun p => p.2)).getD 0

/-- The keys of a distance map, in order. -/
def mapKeys (m : DMap) : List Nat := m.map (fun p => p.1)

/-- Function `min_distance` from graph_algorithms.cpp: a linear scan for the next
unprocessed vertex with minimum current distance, starting from the running
minimum `INT_MAX`.  `none` models the C++ function returning its uninitialised
`min_vertex` (no scan iteration fired); the verified runs never reach it. -/
def min_distance (g : weighted_graph) (dij : DMap) (spt_set : Finset Nat) : Option Nat :=
  (g.verts.foldl
    (fun (acc : Int × Option Nat) v =>
      if v ∉ spt_set ∧ mapAt dij v ≤ acc.1 then (mapAt dij v, some v) else acc)
    (INT_MAX, (none : Option Nat))).2

/-- The initial distance map of `dijkstras`: every vertex at `INT_MAX`, then the
source at 0 unless the graph is empty (the guard keeps the empty graph's map
empty, since `operator[]` would insert the missing source key). -/
def dijkstraInit (g : weighted_graph) (v : Nat) : DMap :=
  let m := g.verts.foldl (fun m x => mapInsert m x INT_MAX) []
  if is_empty g then m else mapSet m v 0

/-- One iteration of the main loop of `dijkstras`: pick the minimum-distance
unprocessed vertex, mark it processed, and relax every adjacent unprocessed
vertex.  When `min_distance` fires no scan iteration the C++ reads an
uninitialised vertex; the model leaves the state unchanged (a case shown
unreachable for nonempty graphs). -/
def dijkstraStep (g : weighted_graph) (st : DMap × Finset Nat) : DMap × Finset Nat :=
  match min_distance g st.1 st.2 with
  | none => st
  | some u =>
    let spt' := insert u st.2
    let dij' := g.verts.foldl
      (fun m v =>
        if v ∉ spt' ∧ are_adjacent g u v = true ∧ mapAt m u ≠ INT_MAX ∧
            mapAt m u + get_edge_weight g u v < mapAt m v
        then mapSet m v (mapAt m u + get_edge_weight g u v) else m)
      st.1
    (dij', spt')

/-- The state of `dijkstras` after `k` iterations of its main loop. -/
def dijkstraLoop (g : weighted_graph) (s : Nat) : Nat → DMap × Finset Nat
  | 0 => (dijkstraInit g s, ∅)
  | k + 1 => dijkstraStep g (dijkstraLoop g s k)

/-- Function `dijkstras` from graph_algorithms.cpp: the main loop runs once per vertex
(the C++ iterator value is unused); the distance map is returned. -/
def dijkstras (g : weighted_graph) (s : Nat) : DMap :=
  (dijkstraLoop g s (num_vertices g)).1

/-- The vertex that `min_distance` selects at each iteration of the main loop of
`dijkstras` (iteration `i` sees the state after `i` previous iterations). -/
def dijkstraSelections (g : weighted_graph) (s : Nat) : List (Option Nat) :=
  (List.range (num_vertices g)).map
    (fun i => min_distance g (dijkstraLoop g s i).1 (dijkstraLoop g s i).2)

/-- Function `articulation_points` from graph_algorithms.cpp: for each vertex, reset the
test graph to a copy of `g`, remove the vertex, and report it when the remainder
is not connected. -/
def articulation_points (g : weighted_graph) : List Nat :=
  g.verts.filter (fun v => !is_connected (remove_vertex g v))

/-- Is `l` a walk in `g`: nonempty, every vertex present in the graph, and each
consecutive pair adjacent?  Walks formalise the spec's "paths" from one vertex
to another. -/
def walkB (g : weighted_graph) : List Nat → Bool
  | [] => false
  | [v] => decide (v ∈ g.verts)
  | v :: w :: rest => decide (v ∈ g.verts) && are_adjacent g v w && walkB g (w :: rest)

/-- The weight of a walk: the sum of the edge weights of its consecutive pairs. -/
def walkWeight (g : weighted_graph) : List Nat → Int
  | v :: w :: rest => get_edge_weight g v w + walkWeight g (w :: rest)
  | _ => 0

/-- A walk from `s` to `t` in `g`. -/
def IsWalk (g : weighted_graph) (s t : Nat) (l : List Nat) : Prop :=
  walkB g l = true ∧ l.head? = some s ∧ l.getLast? = some t

/-- Vertex `t` is reachable from `s` in `g`: some walk joins them. -/
def Reach (g : weighted_graph) (s t : Nat) : Prop := ∃ l, IsWalk g s t l

/-- The largest edge weight of the graph (at least 0). -/
def maxWeight (g : weighted_graph) : Int :=
  (g.edges.map (fun e => e.2.2)).foldr max 0

/-- The tie-break rule the spec's step 3 describes, taken literally: scanning in
native enumeration order, the first vertex encountered with a distance less than
or equal to the running minimum wins, so a later vertex replaces the running
winner only with a strictly smaller distance. -/
def min_distance_first (g : weighted_graph) (dij : DMap) (spt_set : Finset Nat) : Option Nat :=
  (g.verts.foldl
    (fun (acc : Int × Option Nat) v =>
      if v ∉ spt_set ∧ mapAt dij v ≤ acc.1 ∧ (acc.2 = none ∨ mapAt dij v < acc.1)
      then (mapAt dij v, some v) else acc)
    (INT_MAX, (none : Option Nat))).2

/-- The selection rule the source actually implements: among the unprocessed
vertices, the last one in native enumeration order attaining the minimum current
distance (`none` when every vertex is processed). -/
def last_min_vertex (g : weighted_graph) (dij : DMap) (spt_set : Finset Nat) : Option Nat :=
  (g.verts.filter (fun v => decide (v ∉ spt_set))).foldl
    (fun acc v =>
      match acc with
      | none => some v
      | some u => if mapAt dij v ≤ mapAt dij u then some v else some u)
    none

/-- State-passing translation of `is_empty`: the caller's graph is only read
(const reference), so it is threaded through unchanged. -/
def is_empty_st (g : weighted_graph) : Bool × weighted_graph :=
  (is_empty g, g)

/-- State-passing translation of `is_connected`: the caller's graph is only read. -/
def is_connected_st (g : weighted_graph) : Bool × weighted_graph :=
  (is_connected g, g)

/-- State-passing translation of `connected_components`: the caller's graph is
threaded through every loop iteration; all writes target the local component
list and visited set. -/
def connected_components_st (g : weighted_graph) : List weighted_graph × weighted_graph :=
  let fin := g.verts.foldl
    (fun (acc : (List weighted_graph × Finset Nat) × weighted_graph) u =>
      if u ∈ acc.1.2 then acc
      else ((acc.1.1 ++ [buildComponent acc.2 (depth_first acc.2 u)],
             acc.1.2 ∪ depth_first acc.2 u), acc.2))
    (([], ∅), g)
  (fin.1.1, fin.2)

/-- State-passing translation of `dijkstras`: the caller's graph is threaded
through the initialisation loop and the main loop; all writes target the local
distance map and shortest-path-tree set. -/
def dijkstras_st (g : weighted_graph) (s : Nat) : DMap × weighted_graph :=
  let init := g.verts.foldl
    (fun (acc : DMap × weighted_graph) x => (mapInsert acc.1 x INT_MAX, acc.2)) ([], g)
  let init2 := ((if is_empty init.2 then init.1 else mapSet init.1 s 0), init.2)
  let fin := init2.2.verts.foldl
    (fun (acc : (DMap × Finset Nat) × weighted_graph) _ =>
      (dijkstraStep acc.2 acc.1, acc.2))
    ((init2.1, (∅ : Finset Nat)), init2.2)
  (fin.1.1, fin.2)

/-- State-passing translation of `articulation_points`: each iteration copies
the threaded caller graph into the local `test_graph`, removes the vertex from
the copy only, and keeps the caller's graph unchanged in the state. -/
def articulation_points_st (g : weighted_graph) : List Nat × weighted_graph :=
  g.verts.foldl
    (fun (acc : List Nat × weighted_graph) v =>
      let test_graph := remove_vertex acc.2 v
      if is_connected test_graph then acc else (acc.1 ++ [v], acc.2))
    ([], g)

/-- The triangle scenario of the spec: vertices A = 0, B = 1, C = 2 with
edges A-B = 1, B-C = 2, A-C = 4. -/
def exGtri : weighted_graph := ⟨[0, 1, 2], [(0, 1, 1), (1, 2, 2), (0, 2, 4)]⟩

/-- The path scenario of the spec: A - B - C with unit weights. -/
def exGpath : weighted_graph := ⟨[0, 1, 2], [(0, 1, 1), (1, 2, 1)]⟩

/-- Three isolated vertices: exposes the tie-break among equal (infinite)
distances. -/
def exGiso : weighted_graph := ⟨[0, 1, 2], []⟩

/-- The zero-vertex graph. -/
def exGempty : weighted_graph := ⟨[], []⟩

/-- A two-edge path whose total weight `INT_MAX + 1` exceeds the sentinel:
vertex 2 is reachable from 0 only at distance `INT_MAX + 1`. -/
def exGov : weighted_graph := ⟨[0, 1, 2], [(0, 1, 2147483646), (1, 2, 2)]⟩


/-! ### Distance-map lemmas -/

theorem mapAt_nil (k : Nat) : mapAt [] k = 0 := rfl

theorem mapAt_cons_self (p : Nat × Int) (m : DMap) (k : Nat) (h : p.1 = k) :
    mapAt (p :: m) k = p.2 := by
  unfold mapAt
  rw [List.find?_cons_of_pos _ (by simp [h])]
  rfl

theorem mapAt_cons_ne (p : Nat × Int) (m : DMap) (k : Nat) (h : p.1 ≠ k) :
    mapAt (p :: m) k = mapAt m k := by
  unfold mapAt
  rw [List.find?_cons_of_neg _ (by simp [h])]

theorem mem_mapKeys_iff_any (m : DMap) (k : Nat) :
    k ∈ mapKeys m ↔ m.any (fun p => p.1 == k) = true := by
  simp only [mapKeys, List.any_eq_true, List.mem_map, beq_iff_eq]

theorem mapAt_append_self (m : DMap) (k : Nat) (v : Int) (h : k ∉ mapKeys m) :
    mapAt (m ++ [(k, v)]) k = v := by
  induction m with
  | nil => exact mapAt_cons_self (k, v) [] k rfl
  | cons p m ih =>
      have hk : p.1 ≠ k := fun hq => h (by simp [mapKeys, hq])
      have h' : k ∉ mapKeys m := fun hm => h (by simp [mapKeys] at hm ⊢; tauto)
      rw [List.cons_append, mapAt_cons_ne _ _ _ hk]
      exact ih h'

theorem mapAt_append_ne (m : DMap) (k y : Nat) (v : Int) (h : y ≠ k) :
    mapAt (m ++ [(k, v)]) y = mapAt m y := by
  induction m with
  | nil => simp [mapAt_nil, mapAt_cons_ne (k, v) [] y (Ne.symm h)]
  | cons p m ih =>
      by_cases hp : p.1 = y
      · rw [List.cons_append, mapAt_cons_self _ _ _ hp, mapAt_cons_self _ _ _ hp]
      · rw [List.cons_append, mapAt_cons_ne _ _ _ hp, mapAt_cons_ne _ _ _ hp]
        exact ih

theorem mapAt_mapSet_self (m : DMap) (k : Nat) (v : Int) :
    mapAt (mapSet m k v) k = v := by
  unfold mapSet
  by_cases h : m.any (fun p => p.1 == k) = true
  · rw [if_pos h]
    have hk : k ∈ mapKeys m := (mem_mapKeys_iff_any m k).2 h
    clear h
    induction m with
    | nil => simp [mapKeys] at hk
    | cons p m ih =>
        rw [List.map_cons]
        by_cases hp : p.1 = k
        · rw [if_pos (by simpa using hp)]
          exact mapAt_cons_self (k, v) _ k rfl
        · have hk' : k ∈ mapKeys m := by
            simp [mapKeys] at hk ⊢; tauto
          rw [if_neg (by simpa using hp), mapAt_cons_ne _ _ _ hp]
          exact ih hk'
  · rw [if_neg h]
    exact mapAt_append_self m k v (fun hm => h ((mem_mapKeys_iff_any m k).1 hm))

theorem mapAt_mapSet_ne (m : DMap) (k y : Nat) (v : Int) (h : y ≠ k) :
    mapAt (mapSet m k v) y = mapAt m y := by
  unfold mapSet
  by_cases ha : m.any (fun p => p.1 == k) = true
  · rw [if_pos ha]
    clear ha
    induction m with
    | nil => rfl
    | cons p m ih =>
        rw [List.map_cons]
        by_cases hp : p.1 = k
        · rw [if_pos (by simpa using hp)]
          rw [mapAt_cons_ne (k, v) _ y (Ne.symm h), mapAt_cons_ne p m y (by rw [hp]; exact Ne.symm h)]
          exact ih
        · rw [if_neg (by simpa using hp)]
          by_cases hy : p.1 = y
          · rw [mapAt_cons_self _ _ _ hy, mapAt_cons_self _ _ _ hy]
          · rw [mapAt_cons_ne _ _ _ hy, mapAt_cons_ne _ _ _ hy]
            exact ih
  · rw [if_neg ha]
    exact mapAt_append_ne m k y v h

theorem mapKeys_mapSet (m : DMap) (k : Nat) (v : Int) (h : k ∈ mapKeys m) :
    mapKeys (mapSet m k v) = mapKeys m := by
  unfold mapSet
  rw [if_pos ((mem_mapKeys_iff_any m k).1 h)]
  unfold mapKeys
  rw [List.map_map]
  apply List.map_congr_left
  intro p _
  by_cases hp : p.1 = k <;> simp [hp]

theorem mapInsert_mem (m : DMap) (k : Nat) (v : Int) (h : k ∈ mapKeys m) :
    mapInsert m k v = m := by
  unfold mapInsert
  rw [if_pos ((mem_mapKeys_iff_any m k).1 h)]

theorem mapInsert_new (m : DMap) (k : Nat) (v : Int) (h : k ∉ mapKeys m) :
    mapInsert m k v = m ++ [(k, v)] := by
  unfold mapInsert
  rw [if_neg (fun ha => h ((mem_mapKeys_iff_any m k).2 ha))]

theorem mapKeys_append (m : DMap) (p : Nat × Int) :
    mapKeys (m ++ [p]) = mapKeys m ++ [p.1] := by
  simp [mapKeys]

theorem initFold_spec (l : List Nat) (m : DMap)
    (hd : ∀ x ∈ l, x ∉ mapKeys m) (hn : l.Nodup) :
    mapKeys (l.foldl (fun m x => mapInsert m x INT_MAX) m) = mapKeys m ++ l ∧
    (∀ y, y ∉ l → mapAt (l.foldl (fun m x => mapInsert m x INT_MAX) m) y = mapAt m y) ∧
    (∀ y ∈ l, mapAt (l.foldl (fun m x => mapInsert m x INT_MAX) m) y = INT_MAX) := by
  induction l generalizing m with
  | nil => simp
  | cons x l ih =>
      have hx : x ∉ mapKeys m := hd x (by simp)
      have hstep : mapInsert m x INT_MAX = m ++ [(x, INT_MAX)] := mapInsert_new m x INT_MAX hx
      have hn' : l.Nodup := (List.nodup_cons.1 hn).2
      have hxl : x ∉ l := (List.nodup_cons.1 hn).1
      have hd' : ∀ z ∈ l, z ∉ mapKeys (m ++ [(x, INT_MAX)]) := by
        intro z hz hmem
        rw [mapKeys_append] at hmem
        rcases List.mem_append.1 hmem with hz' | hz'
        · exact hd z (by simp [hz]) hz'
        · simp at hz'
          exact hxl (hz' ▸ hz)
      obtain ⟨ihk, ihout, ihin⟩ := ih (m ++ [(x, INT_MAX)]) hd' hn'
      refine ⟨?_, ?_, ?_⟩
      · rw [List.foldl_cons, hstep, ihk, mapKeys_append]
        simp
      · intro y hy
        have hyx : y ≠ x := fun h => hy (by simp [h])
        have hyl : y ∉ l := fun h => hy (by simp [h])
        rw [List.foldl_cons, hstep, ihout y hyl, mapAt_append_ne m x y INT_MAX hyx]
      · intro y hy
        rcases List.mem_cons.1 hy with rfl | hy'
        · rw [List.foldl_cons, hstep, ihout y hxl, mapAt_append_self m y INT_MAX hx]
        · rw [List.foldl_cons, hstep]
          exact ihin y hy'

theorem is_empty_iff (g : weighted_graph) : is_empty g = true ↔ g.verts = [] := by
  simp [is_empty, num_vertices, List.length_eq_zero]

theorem dijkstraInit_keys (g : weighted_graph) (s : Nat)
    (hn : g.verts.Nodup) (hs : s ∈ g.verts) :
    mapKeys (dijkstraInit g s) = g.verts := by
  unfold dijkstraInit
  obtain ⟨hk, _, _⟩ := initFold_spec g.verts [] (by simp [mapKeys]) hn
  rw [show mapKeys ([] : DMap) = [] from rfl, List.nil_append] at hk
  have hne : ¬ is_empty g = true := by
    rw [is_empty_iff]
    intro h
    rw [h] at hs
    exact List.not_mem_nil s hs
  rw [if_neg hne, mapKeys_mapSet _ s 0 (by rw [hk]; exact hs), hk]

theorem dijkstraInit_at (g : weighted_graph) (s : Nat)
    (hn : g.verts.Nodup) (hs : s ∈ g.verts) :
    ∀ v ∈ g.verts, mapAt (dijkstraInit g s) v = if v = s then 0 else INT_MAX := by
  intro v hv
  unfold dijkstraInit
  obtain ⟨hk, _, hin⟩ := initFold_spec g.verts [] (by simp [mapKeys]) hn
  rw [show mapKeys ([] : DMap) = [] from rfl, List.nil_append] at hk
  have hne : ¬ is_empty g = true := by
    rw [is_empty_iff]
    intro h
    rw [h] at hs
    exact List.not_mem_nil s hs
  rw [if_neg hne]
  by_cases hvs : v = s
  · subst hvs
    rw [if_pos rfl]
    exact mapAt_mapSet_self _ v 0
  · rw [if_neg hvs, mapAt_mapSet_ne _ s v 0 hvs]
    exact hin v hv

theorem dijkstraInit_le (g : weighted_graph) (s : Nat) (hn : g.verts.Nodup) :
    ∀ v ∈ g.verts, v ∈ mapKeys (dijkstraInit g s) ∧ mapAt (dijkstraInit g s) v ≤ INT_MAX := by
  intro v hv
  unfold dijkstraInit
  obtain ⟨hk, _, hin⟩ := initFold_spec g.verts [] (by simp [mapKeys]) hn
  rw [show mapKeys ([] : DMap) = [] from rfl, List.nil_append] at hk
  by_cases he : is_empty g = true
  · rw [is_empty_iff] at he
    rw [he] at hv
    exact absurd hv (List.not_mem_nil v)
  · rw [if_neg he]
    by_cases hs : s ∈ g.verts
    · constructor
      · rw [mapKeys_mapSet _ s 0 (by rw [hk]; exact hs), hk]
        exact hv
      · by_cases hvs : v = s
        · subst hvs
          rw [mapAt_mapSet_self _ v 0]
          norm_num [INT_MAX]
        · rw [mapAt_mapSet_ne _ s v 0 hvs, hin v hv]
    · have hvs : v ≠ s := fun h => hs (h ▸ hv)
      have hsk : s ∉ mapKeys (g.verts.foldl (fun m x => mapInsert m x INT_MAX) []) := by
        rw [hk]
        exact hs
      have : mapSet (g.verts.foldl (fun m x => mapInsert m x INT_MAX) []) s 0 =
          (g.verts.foldl (fun m x => mapInsert m x INT_MAX) []) ++ [(s, 0)] := by
        unfold mapSet
        rw [if_neg (fun ha => hsk ((mem_mapKeys_iff_any _ s).2 ha))]
      rw [this]
      constructor
      · rw [mapKeys_append, hk]
        simp [hv]
      · rw [mapAt_append_ne _ s v 0 hvs, hin v hv]

/-! ### Walk lemmas -/

theorem samePair_symm (e : Nat × Nat × Int) (u v : Nat) :
    samePair e u v = samePair e v u := by
  simp [samePair, Bool.or_comm]

theorem are_adjacent_symm (g : weighted_graph) (u v : Nat) :
    are_adjacent g u v = are_adjacent g v u := by
  unfold are_adjacent
  induction g.edges with
  | nil => rfl
  | cons e t ih => simp [List.any_cons, ih, samePair_symm e u v]

theorem walkB_head_mem (g : weighted_graph) (x : Nat) (l : List Nat)
    (h : walkB g (x :: l) = true) : x ∈ g.verts := by
  cases l with
  | nil => simpa [walkB] using h
  | cons b t =>
      simp only [walkB, Bool.and_eq_true, decide_eq_true_eq] at h
      exact h.1.1

theorem walkB_mem_verts (g : weighted_graph) :
    ∀ l, walkB g l = true → ∀ x ∈ l, x ∈ g.verts := by
  intro l
  induction l with
  | nil => intro h; simp [walkB] at h
  | cons a t ih =>
      intro h x hx
      rcases List.mem_cons.1 hx with rfl | hx'
      · exact walkB_head_mem g x t h
      · cases t with
        | nil => simp at hx'
        | cons b t' =>
            simp only [walkB, Bool.and_eq_true, decide_eq_true_eq] at h
            exact ih h.2 x hx'

theorem walkB_append_iff (g : weighted_graph) (x : Nat) (l₂ : List Nat) :
    ∀ l₁, walkB g (l₁ ++ x :: l₂) = true ↔
      (walkB g (l₁ ++ [x]) = true ∧ walkB g (x :: l₂) = true) := by
  intro l₁
  induction l₁ with
  | nil =>
      simp only [List.nil_append]
      constructor
      · intro h
        refine ⟨?_, h⟩
        have := walkB_head_mem g x l₂ h
        simpa [walkB] using this
      · exact fun h => h.2
  | cons a l₁ ih =>
      cases l₁ with
      | nil =>
          simp only [List.nil_append, List.cons_append, walkB, Bool.and_eq_true,
            decide_eq_true_eq]
          constructor
          · rintro ⟨⟨ha, hadj⟩, hw⟩
            exact ⟨⟨⟨ha, hadj⟩, walkB_head_mem g x l₂ hw⟩, hw⟩
          · rintro ⟨⟨⟨ha, hadj⟩, _⟩, hw⟩
            exact ⟨⟨ha, hadj⟩, hw⟩
      | cons c t =>
          have ih' := ih
          simp only [List.cons_append, walkB, Bool.and_eq_true, decide_eq_true_eq,
            List.append_eq] at ih' ⊢
          tauto

theorem walkWeight_append (g : weighted_graph) (x : Nat) (l₂ : List Nat) :
    ∀ l₁, walkWeight g (l₁ ++ x :: l₂) = walkWeight g (l₁ ++ [x]) + walkWeight g (x :: l₂) := by
  intro l₁
  induction l₁ with
  | nil =>
      simp only [List.nil_append]
      have : walkWeight g [x] = 0 := rfl
      omega
  | cons a l₁ ih =>
      cases l₁ with
      | nil =>
          simp only [List.nil_append, List.cons_append, walkWeight]
          have h1 : walkWeight g [x] = 0 := rfl
          cases l₂ with
          | nil => simp [walkWeight]
          | cons b t => simp [walkWeight]
      | cons c t =>
          simp only [List.cons_append, walkWeight, List.append_eq] at ih ⊢
          omega

theorem isWalk_singleton (g : weighted_graph) (s : Nat) (hs : s ∈ g.verts) :
    IsWalk g s s [s] := by
  refine ⟨?_, rfl, rfl⟩
  simpa [walkB]

theorem walkB_snoc (g : weighted_graph) (t : Nat) :
    ∀ l y, walkB g l = true → l.getLast? = some y → are_adjacent g y t = true →
      t ∈ g.verts → walkB g (l ++ [t]) = true := by
  intro l
  induction l with
  | nil => intro y _ hl; simp at hl
  | cons a l ih =>
      intro y hw hl hadj ht
      cases l with
      | nil =>
          simp only [List.getLast?_singleton, Option.some.injEq] at hl
          subst hl
          simp only [walkB, Bool.and_eq_true, decide_eq_true_eq] at hw ⊢
          exact ⟨⟨hw, hadj⟩, ht⟩
      | cons b l' =>
          rw [List.getLast?_cons_cons] at hl
          simp only [walkB, Bool.and_eq_true, decide_eq_true_eq] at hw
          have := ih y hw.2 hl hadj ht
          simp only [List.cons_append, walkB, Bool.and_eq_true, decide_eq_true_eq,
            List.append_eq] at this ⊢
          exact ⟨hw.1, this⟩

theorem isWalk_snoc (g : weighted_graph) (s y t : Nat) (l : List Nat)
    (h : IsWalk g s y l) (hadj : are_adjacent g y t = true) (ht : t ∈ g.verts) :
    IsWalk g s t (l ++ [t]) := by
  obtain ⟨hw, hh, hl⟩ := h
  refine ⟨walkB_snoc g t l y hw hl hadj ht, ?_, ?_⟩
  · have hne : l ≠ [] := by
      intro h; rw [h] at hh; simp at hh
    rw [List.head?_append_of_ne_nil _ hne]
    exact hh
  · exact List.getLast?_concat l

theorem walkWeight_snoc (g : weighted_graph) (t : Nat) :
    ∀ l y, l.getLast? = some y →
      walkWeight g (l ++ [t]) = walkWeight g l + get_edge_weight g y t := by
  intro l
  induction l with
  | nil => intro y hl; simp at hl
  | cons a l ih =>
      intro y hl
      cases l with
      | nil =>
          simp only [List.getLast?_singleton, Option.some.injEq] at hl
          subst hl
          simp only [List.cons_append, List.nil_append, walkWeight]
          omega
      | cons b l' =>
          rw [List.getLast?_cons_cons] at hl
          have := ih y hl
          simp only [List.cons_append, walkWeight, List.append_eq] at this ⊢
          omega

theorem isWalk_snoc_cases (g : weighted_graph) (s t : Nat) (l : List Nat)
    (h : IsWalk g s t l) :
    (l = [s] ∧ t = s) ∨
    ∃ l' y, l = l' ++ [t] ∧ IsWalk g s y l' ∧ are_adjacent g y t = true ∧
      walkWeight g l = walkWeight g l' + get_edge_weight g y t := by
  obtain ⟨hw, hh, hl⟩ := h
  rcases List.eq_nil_or_concat' l with rfl | ⟨l'', x, rfl⟩
  · simp at hh
  · have hx : x = t := by
      rw [List.getLast?_concat] at hl
      simpa using hl
    subst hx
    rcases List.eq_nil_or_concat' l'' with rfl | ⟨l₃, y, rfl⟩
    · left
      simp only [List.nil_append, List.head?_cons, Option.some.injEq] at hh
      exact ⟨by simp [hh], hh⟩
    · right
      have hsplit : (l₃ ++ [y]) ++ [x] = l₃ ++ y :: [x] := by simp
      rw [hsplit] at hw
      rw [walkB_append_iff g y [x] l₃] at hw
      obtain ⟨hw1, hw2⟩ := hw
      simp only [walkB, Bool.and_eq_true, decide_eq_true_eq] at hw2
      refine ⟨l₃ ++ [y], y, rfl, ⟨hw1, ?_, List.getLast?_concat l₃⟩, hw2.1.2, ?_⟩
      · have hne : l₃ ++ [y] ≠ [] := by simp
        rw [List.head?_append_of_ne_nil _ hne] at hh
        exact hh
      · rw [hsplit, walkWeight_append g y [x] l₃]
        have : walkWeight g [y, x] = get_edge_weight g y x + 0 := rfl
        omega

theorem isWalk_reverse (g : weighted_graph) :
    ∀ l s t, IsWalk g s t l → IsWalk g t s l.reverse := by
  intro l
  induction l with
  | nil => intro s t h; obtain ⟨_, hh, _⟩ := h; simp at hh
  | cons a l ih =>
      intro s t h
      obtain ⟨hw, hh, hl⟩ := h
      simp only [List.head?_cons, Option.some.injEq] at hh
      subst hh
      cases l with
      | nil =>
          simp only [List.getLast?_singleton, Option.some.injEq] at hl
          subst hl
          exact ⟨hw, rfl, rfl⟩
      | cons b l' =>
          rw [List.getLast?_cons_cons] at hl
          simp only [walkB, Bool.and_eq_true, decide_eq_true_eq] at hw
          have htail : IsWalk g b t (b :: l') := ⟨hw.2, rfl, hl⟩
          have hrev := ih b t htail
          have hadj : are_adjacent g b a = true := by
            rw [are_adjacent_symm]; exact hw.1.2
          have := isWalk_snoc g t b a ((b :: l').reverse) hrev hadj hw.1.1
          simpa using this

theorem isWalk_concat (g : weighted_graph) :
    ∀ rest m t l s, IsWalk g s m l → walkB g (m :: rest) = true →
      (m :: rest).getLast? = some t → IsWalk g s t (l ++ rest) := by
  intro rest
  induction rest with
  | nil =>
      intro m t l s h _ hl
      simp only [List.getLast?_singleton, Option.some.injEq] at hl
      subst hl
      simpa using h
  | cons b rest ih =>
      intro m t l s h hw hl
      rw [List.getLast?_cons_cons] at hl
      simp only [walkB, Bool.and_eq_true, decide_eq_true_eq] at hw
      have hb : b ∈ g.verts := walkB_head_mem g b rest hw.2
      have hstep := isWalk_snoc g s m b l h hw.1.2 hb
      have := ih b t (l ++ [b]) s hstep hw.2 hl
      simpa [List.append_assoc] using this

theorem reach_refl (g : weighted_graph) (s : Nat) (hs : s ∈ g.verts) : Reach g s s :=
  ⟨[s], isWalk_singleton g s hs⟩

theorem reach_symm (g : weighted_graph) (s t : Nat) (h : Reach g s t) : Reach g t s := by
  obtain ⟨l, hl⟩ := h
  exact ⟨l.reverse, isWalk_reverse g l s t hl⟩

theorem reach_trans (g : weighted_graph) (s m t : Nat)
    (h1 : Reach g s m) (h2 : Reach g m t) : Reach g s t := by
  obtain ⟨l₁, hl₁⟩ := h1
  obtain ⟨l₂, hl₂⟩ := h2
  obtain ⟨hw2, hh2, hlast2⟩ := hl₂
  cases l₂ with
  | nil => simp at hh2
  | cons m' rest =>
      simp only [List.head?_cons, Option.some.injEq] at hh2
      subst hh2
      exact ⟨l₁ ++ rest, isWalk_concat g rest m' t l₁ s hl₁ hw2 hlast2⟩

theorem reach_snoc (g : weighted_graph) (s y t : Nat)
    (h : Reach g s y) (hadj : are_adjacent g y t = true) (ht : t ∈ g.verts) :
    Reach g s t := by
  obtain ⟨l, hl⟩ := h
  exact ⟨l ++ [t], isWalk_snoc g s y t l hl hadj ht⟩

theorem reach_mem_left (g : weighted_graph) (s t : Nat) (h : Reach g s t) : s ∈ g.verts := by
  obtain ⟨l, hw, hh, _⟩ := h
  cases l with
  | nil => simp at hh
  | cons a l' =>
      simp only [List.head?_cons, Option.some.injEq] at hh
      subst hh
      exact walkB_head_mem g a l' hw

theorem reach_mem_right (g : weighted_graph) (s t : Nat) (h : Reach g s t) : t ∈ g.verts :=
  reach_mem_left g t s (reach_symm g s t h)

/-! ### Weight bounds and walk shortening -/

theorem get_edge_weight_nonneg (g : weighted_graph) (hw : ∀ e ∈ g.edges, 0 ≤ e.2.2)
    (u v : Nat) : 0 ≤ get_edge_weight g u v := by
  unfold get_edge_weight
  cases hfind : g.edges.find? (fun e => samePair e u v) with
  | none => simp
  | some e => simpa using hw e (List.mem_of_find?_eq_some hfind)

theorem walkWeight_nonneg (g : weighted_graph) (hw : ∀ e ∈ g.edges, 0 ≤ e.2.2) :
    ∀ l, 0 ≤ walkWeight g l := by
  intro l
  induction l with
  | nil => simp [walkWeight]
  | cons a l ih =>
      cases l with
      | nil => simp [walkWeight]
      | cons b t =>
          have h1 := get_edge_weight_nonneg g hw a b
          simp only [walkWeight] at ih ⊢
          omega

theorem foldr_max_nonneg (L : List Int) : 0 ≤ L.foldr max 0 := by
  induction L with
  | nil => simp
  | cons a t ih => exact le_trans ih (by simp [le_max_right])

theorem mem_le_foldr_max (L : List Int) (x : Int) (h : x ∈ L) : x ≤ L.foldr max 0 := by
  induction L with
  | nil => simp at h
  | cons a t ih =>
      rcases List.mem_cons.1 h with rfl | h'
      · simp [le_max_left]
      · exact le_trans (ih h') (by simp [le_max_right])

theorem maxWeight_nonneg (g : weighted_graph) : 0 ≤ maxWeight g :=
  foldr_max_nonneg _

theorem get_edge_weight_le_max (g : weighted_graph) (u v : Nat) :
    get_edge_weight g u v ≤ maxWeight g := by
  unfold get_edge_weight maxWeight
  cases hfind : g.edges.find? (fun e => samePair e u v) with
  | none => simpa using foldr_max_nonneg _
  | some e =>
      simpa using mem_le_foldr_max _ _ (List.mem_map_of_mem _ (List.mem_of_find?_eq_some hfind))

theorem walkWeight_le_len_mul (g : weighted_graph) :
    ∀ l a, walkWeight g (a :: l) ≤ (l.length : Int) * maxWeight g := by
  intro l
  induction l with
  | nil => intro a; simp [walkWeight]
  | cons b t ih =>
      intro a
      have h1 := get_edge_weight_le_max g a b
      have h2 := ih b
      simp only [walkWeight, List.length_cons] at h2 ⊢
      push_cast
      nlinarith [maxWeight_nonneg g]

theorem nodup_subset_length_le (l L : List Nat) (hn : l.Nodup) (hsub : ∀ x ∈ l, x ∈ L) :
    l.length ≤ L.length := by
  calc l.length = l.toFinset.card := (List.toFinset_card_of_nodup hn).symm
    _ ≤ L.toFinset.card := by
        apply Finset.card_le_card
        intro x hx
        rw [List.mem_toFinset] at hx ⊢
        exact hsub x hx
    _ ≤ L.length := List.toFinset_card_le L

theorem nodup_walk_weight_lt (g : weighted_graph)
    (hb : (g.verts.length : Int) * maxWeight g < INT_MAX)
    (l : List Nat) (hwalk : walkB g l = true) (hn : l.Nodup) :
    walkWeight g l < INT_MAX := by
  cases l with
  | nil => simp [walkB] at hwalk
  | cons a t =>
      have h1 := walkWeight_le_len_mul g t a
      have hlen : (a :: t).length ≤ g.verts.length :=
        nodup_subset_length_le (a :: t) g.verts hn (walkB_mem_verts g (a :: t) hwalk)
      have hlen' : (t.length : Int) ≤ (g.verts.length : Int) := by
        simp only [List.length_cons] at hlen
        exact_mod_cast Nat.le_of_succ_le hlen
      have h2 : (t.length : Int) * maxWeight g ≤ (g.verts.length : Int) * maxWeight g :=
        mul_le_mul_of_nonneg_right hlen' (maxWeight_nonneg g)
      omega

theorem not_nodup_decomp (l : List Nat) (h : ¬ l.Nodup) :
    ∃ a x b c, l = a ++ x :: b ++ x :: c := by
  induction l with
  | nil => simp at h
  | cons y rest ih =>
      by_cases hy : y ∈ rest
      · obtain ⟨b, c, rfl⟩ := List.append_of_mem hy
        exact ⟨[], y, b, c, rfl⟩
      · have : ¬ rest.Nodup := by
          intro hr
          exact h (List.nodup_cons.2 ⟨hy, hr⟩)
        obtain ⟨a, x, b, c, rfl⟩ := ih this
        exact ⟨y :: a, x, b, c, rfl⟩

theorem head?_append_cons_same (a : List Nat) (x : Nat) (l₂ l₃ : List Nat) :
    (a ++ x :: l₂).head? = (a ++ x :: l₃).head? := by
  cases a with
  | nil => rfl
  | cons p q => rfl

theorem walk_shorten_bounded (g : weighted_graph) (hw : ∀ e ∈ g.edges, 0 ≤ e.2.2) :
    ∀ n l s t, l.length ≤ n → IsWalk g s t l →
      ∃ l', IsWalk g s t l' ∧ l'.Nodup ∧ walkWeight g l' ≤ walkWeight g l := by
  intro n
  induction n with
  | zero =>
      intro l s t hlen h
      obtain ⟨_, hh, _⟩ := h
      rw [List.length_eq_zero.1 (Nat.le_zero.1 hlen)] at hh
      simp at hh
  | succ n ih =>
      intro l s t hlen h
      by_cases hn : l.Nodup
      · exact ⟨l, h, hn, le_refl _⟩
      · obtain ⟨a, x, b, c, rfl⟩ := not_nodup_decomp l hn
        obtain ⟨hwalk, hh, hl⟩ := h
        have hshape : a ++ x :: b ++ x :: c = a ++ x :: (b ++ x :: c) := by simp
        rw [hshape] at hwalk hh hl hlen
        -- the shortened walk removes the cycle between the two occurrences of x
        have hsplit1 : walkB g (a ++ [x]) = true ∧ walkB g (x :: (b ++ x :: c)) = true := by
          rw [← walkB_append_iff g x (b ++ x :: c) a]
          exact hwalk
        have hsplit2 : walkB g ((x :: b) ++ [x]) = true ∧ walkB g (x :: c) = true := by
          rw [← walkB_append_iff g x c (x :: b)]
          simpa using hsplit1.2
        have hwalk' : walkB g (a ++ x :: c) = true := by
          rw [walkB_append_iff g x c a]
          exact ⟨hsplit1.1, hsplit2.2⟩
        have hweq : walkWeight g (a ++ x :: (b ++ x :: c)) =
            walkWeight g (a ++ [x]) + (walkWeight g ((x :: b) ++ [x]) + walkWeight g (x :: c)) := by
          rw [walkWeight_append g x (b ++ x :: c) a]
          congr 1
          have h0 : x :: (b ++ x :: c) = (x :: b) ++ x :: c := by simp
          rw [h0, walkWeight_append g x c (x :: b)]
        have hweq' : walkWeight g (a ++ x :: c) =
            walkWeight g (a ++ [x]) + walkWeight g (x :: c) :=
          walkWeight_append g x c a
        have hmid : 0 ≤ walkWeight g ((x :: b) ++ [x]) := walkWeight_nonneg g hw _
        have hhead : (a ++ x :: c).head? = some s := by
          rw [head?_append_cons_same a x c (b ++ x :: c)]
          exact hh
        have hlast : (a ++ x :: c).getLast? = some t := by
          rcases List.eq_nil_or_concat' c with rfl | ⟨c₀, e, rfl⟩
          · have h1 : a ++ x :: (b ++ x :: []) = (a ++ x :: b) ++ [x] := by simp
            have h2 : a ++ x :: ([] : List Nat) = a ++ [x] := rfl
            rw [h1, List.getLast?_concat] at hl
            rw [h2, List.getLast?_concat]
            exact hl
          · have h1 : a ++ x :: (b ++ x :: (c₀ ++ [e])) = (a ++ (x :: b ++ x :: c₀)) ++ [e] := by
              simp
            have h2 : a ++ x :: (c₀ ++ [e]) = (a ++ x :: c₀) ++ [e] := by simp
            rw [h1, List.getLast?_concat] at hl
            rw [h2, List.getLast?_concat]
            exact hl
        have hlen' : (a ++ x :: c).length ≤ n := by
          simp only [List.length_append, List.length_cons] at hlen ⊢
          omega
        obtain ⟨l', hw', hn', hle⟩ := ih (a ++ x :: c) s t hlen' ⟨hwalk', hhead, hlast⟩
        refine ⟨l', hw', hn', ?_⟩
        rw [hshape, hweq]
        rw [hweq'] at hle
        omega

theorem walk_shorten (g : weighted_graph) (hw : ∀ e ∈ g.edges, 0 ≤ e.2.2)
    (s t : Nat) (l : List Nat) (h : IsWalk g s t l) :
    ∃ l', IsWalk g s t l' ∧ l'.Nodup ∧ walkWeight g l' ≤ walkWeight g l :=
  walk_shorten_bounded g hw l.length l s t (le_refl _) h

/-! ### depth_first reaches exactly the reachable set -/

theorem subset_reachStep (g : weighted_graph) (s : Finset Nat) : s ⊆ reachStep g s :=
  Finset.subset_union_left

theorem reachStep_subset_insert (g : weighted_graph) (u : Nat) (s : Finset Nat)
    (hs : s ⊆ insert u g.verts.toFinset) :
    reachStep g s ⊆ insert u g.verts.toFinset := by
  unfold reachStep
  intro x hx
  rcases Finset.mem_union.1 hx with hx | hx
  · exact hs hx
  · rw [List.mem_toFinset] at hx
    exact Finset.mem_insert_of_mem (List.mem_toFinset.2 (List.mem_of_mem_filter hx))

theorem iterate_subset_insert (g : weighted_graph) (u : Nat) (k : Nat) :
    (reachStep g)^[k] {u} ⊆ insert u g.verts.toFinset := by
  induction k with
  | zero => simp
  | succ k ih =>
      rw [Function.iterate_succ_apply']
      exact reachStep_subset_insert g u _ ih

theorem start_mem_iterate (g : weighted_graph) (u : Nat) (k : Nat) :
    u ∈ (reachStep g)^[k] {u} := by
  induction k with
  | zero => simp
  | succ k ih =>
      rw [Function.iterate_succ_apply']
      exact subset_reachStep g _ ih

theorem iterate_stable (g : weighted_graph) (s : Finset Nat) (k : Nat)
    (h : reachStep g ((reachStep g)^[k] s) = (reachStep g)^[k] s) :
    ∀ j, k ≤ j → (reachStep g)^[j] s = (reachStep g)^[k] s := by
  intro j hj
  induction j with
  | zero =>
      have : k = 0 := Nat.le_zero.1 hj
      rw [this]
  | succ j ih =>
      rcases Nat.lt_or_ge k (j + 1) with hk | hk
      · have hkj : k ≤ j := Nat.lt_succ_iff.1 hk
        rw [Function.iterate_succ_apply', ih hkj, h]
      · have : k = j + 1 := le_antisymm hj hk
        rw [this]

theorem iterate_card_grows (g : weighted_graph) (u : Nat) :
    ∀ m, (∀ k, k < m → reachStep g ((reachStep g)^[k] {u}) ≠ (reachStep g)^[k] {u}) →
      m + 1 ≤ ((reachStep g)^[m] {u}).card := by
  intro m
  induction m with
  | zero => intro _; simp
  | succ m ih =>
      intro h
      have hm := ih (fun k hk => h k (Nat.lt_succ_of_lt hk))
      have hne : reachStep g ((reachStep g)^[m] {u}) ≠ (reachStep g)^[m] {u} :=
        h m (Nat.lt_succ_self m)
      have hsub : (reachStep g)^[m] {u} ⊆ reachStep g ((reachStep g)^[m] {u}) :=
        subset_reachStep g _
      have hcard : ((reachStep g)^[m] {u}).card < (reachStep g ((reachStep g)^[m] {u})).card :=
        Finset.card_lt_card (Finset.ssubset_iff_subset_ne.2 ⟨hsub, Ne.symm hne⟩)
      rw [Function.iterate_succ_apply']
      omega

theorem depth_first_fixed (g : weighted_graph) (u : Nat) :
    reachStep g (depth_first g u) = depth_first g u := by
  unfold depth_first
  set n := g.verts.length with hn
  by_cases hex : ∃ k, k ≤ n ∧ reachStep g ((reachStep g)^[k] {u}) = (reachStep g)^[k] {u}
  · obtain ⟨k, hk, hfix⟩ := hex
    rw [iterate_stable g {u} k hfix n hk, hfix]
  · push_neg at hex
    have hgrow := iterate_card_grows g u (n + 1)
      (fun k hk => hex k (Nat.lt_succ_iff.1 hk))
    have hbound : ((reachStep g)^[n + 1] {u}).card ≤ n + 1 := by
      calc ((reachStep g)^[n + 1] {u}).card
          ≤ (insert u g.verts.toFinset).card := Finset.card_le_card (iterate_subset_insert g u _)
        _ ≤ g.verts.toFinset.card + 1 := Finset.card_insert_le u _
        _ ≤ n + 1 := by
            have := List.toFinset_card_le g.verts
            omega
    omega

theorem depth_first_closed (g : weighted_graph) (u w v : Nat)
    (hw : w ∈ depth_first g u) (hadj : are_adjacent g w v = true) (hv : v ∈ g.verts) :
    v ∈ depth_first g u := by
  have hfix := depth_first_fixed g u
  rw [← hfix]
  unfold reachStep
  apply Finset.mem_union_right
  rw [List.mem_toFinset, List.mem_filter]
  exact ⟨hv, by simp only [decide_eq_true_eq]; exact ⟨w, hw, hadj⟩⟩

theorem mem_depth_first_self (g : weighted_graph) (u : Nat) : u ∈ depth_first g u :=
  start_mem_iterate g u _

theorem depth_first_subset_verts (g : weighted_graph) (u : Nat) (hu : u ∈ g.verts) :
    depth_first g u ⊆ g.verts.toFinset := by
  have h := iterate_subset_insert g u g.verts.length
  unfold depth_first
  intro x hx
  have := h hx
  rcases Finset.mem_insert.1 this with rfl | hmem
  · exact List.mem_toFinset.2 hu
  · exact hmem

theorem walk_mem_closed_set (g : weighted_graph) (S : Finset Nat)
    (hclosed : ∀ w v, w ∈ S → are_adjacent g w v = true → v ∈ g.verts → v ∈ S) :
    ∀ l m v, walkB g (m :: l) = true → m ∈ S → (m :: l).getLast? = some v → v ∈ S := by
  intro l
  induction l with
  | nil =>
      intro m v _ hm hl
      simp only [List.getLast?_singleton, Option.some.injEq] at hl
      rwa [← hl]
  | cons b t ih =>
      intro m v hwalk hm hl
      simp only [walkB, Bool.and_eq_true, decide_eq_true_eq] at hwalk
      have hb : b ∈ g.verts := walkB_head_mem g b t hwalk.2
      have hbS : b ∈ S := hclosed m b hm hwalk.1.2 hb
      rw [List.getLast?_cons_cons] at hl
      exact ih b v hwalk.2 hbS hl

theorem mem_depth_first_iff (g : weighted_graph) (u v : Nat) (hu : u ∈ g.verts) :
    v ∈ depth_first g u ↔ Reach g u v := by
  constructor
  · -- soundness: induction over the spreading rounds
    suffices h : ∀ k x, x ∈ (reachStep g)^[k] {u} → Reach g u x by
      intro hv
      exact h g.verts.length v hv
    intro k
    induction k with
    | zero =>
        intro x hx
        simp only [Function.iterate_zero, id, Finset.mem_singleton] at hx
        rw [hx]
        exact reach_refl g u hu
    | succ k ih =>
        intro x hx
        rw [Function.iterate_succ_apply'] at hx
        unfold reachStep at hx
        rcases Finset.mem_union.1 hx with hx | hx
        · exact ih x hx
        · rw [List.mem_toFinset, List.mem_filter] at hx
          obtain ⟨hxv, hex⟩ := hx
          simp only [decide_eq_true_eq] at hex
          obtain ⟨w, hwS, hadj⟩ := hex
          exact reach_snoc g u w x (ih w hwS) hadj hxv
  · -- completeness: the fixed point is closed under adjacency
    rintro ⟨l, hwalk, hh, hl⟩
    cases l with
    | nil => simp at hh
    | cons m rest =>
        simp only [List.head?_cons, Option.some.injEq] at hh
        subst hh
        exact walk_mem_closed_set g (depth_first g m)
          (fun w v hw hadj hv => depth_first_closed g m w v hw hadj hv)
          rest m v hwalk (mem_depth_first_self g m) hl

/-! ### buildComponent: vertex set and induced adjacency -/

theorem add_vertex_new (g : weighted_graph) (v : Nat) (h : v ∉ g.verts) :
    (add_vertex g v).verts = g.verts ++ [v] ∧ (add_vertex g v).edges = g.edges := by
  unfold add_vertex
  rw [if_neg h]
  exact ⟨rfl, rfl⟩

theorem foldl_add_vertex (vs : List Nat) :
    ∀ g0 : weighted_graph, (∀ x ∈ vs, x ∉ g0.verts) → vs.Nodup →
      (vs.foldl add_vertex g0).verts = g0.verts ++ vs ∧
      (vs.foldl add_vertex g0).edges = g0.edges := by
  induction vs with
  | nil => intro g0 _ _; simp
  | cons x vs ih =>
      intro g0 hnew hn
      have hx : x ∉ g0.verts := hnew x (by simp)
      obtain ⟨hv, he⟩ := add_vertex_new g0 x hx
      have hnew' : ∀ z ∈ vs, z ∉ (add_vertex g0 x).verts := by
        intro z hz hmem
        rw [hv] at hmem
        rcases List.mem_append.1 hmem with h' | h'
        · exact hnew z (by simp [hz]) h'
        · simp only [List.mem_singleton] at h'
          exact (List.nodup_cons.1 hn).1 (h' ▸ hz)
      obtain ⟨ihv, ihe⟩ := ih (add_vertex g0 x) hnew' (List.nodup_cons.1 hn).2
      rw [List.foldl_cons]
      constructor
      · rw [ihv, hv]
        simp
      · rw [ihe, he]

theorem add_edge_verts (g : weighted_graph) (u v : Nat) (w : Int) :
    (add_edge g u v w).verts = g.verts := by
  unfold add_edge
  by_cases h : u ∈ g.verts ∧ v ∈ g.verts
  · rw [if_pos h]
  · rw [if_neg h]

theorem add_edge_skip (g : weighted_graph) (u v : Nat) (w : Int)
    (h : ¬ (u ∈ g.verts ∧ v ∈ g.verts)) : add_edge g u v w = g := by
  unfold add_edge
  rw [if_neg h]

theorem samePair_resolve (e : Nat × Nat × Int) (u v : Nat) (h : samePair e u v = true) :
    (e.1 = u ∧ e.2.1 = v) ∨ (e.1 = v ∧ e.2.1 = u) := by
  simpa [samePair, beq_iff_eq] using h

theorem samePair_carry (e : Nat × Nat × Int) (u v a b : Nat) (w : Int)
    (h1 : samePair e a b = true) (h2 : samePair e u v = true) :
    samePair (u, v, w) a b = true := by
  simp only [samePair, beq_iff_eq, Bool.or_eq_true, Bool.and_eq_true] at h1 h2 ⊢
  omega

theorem are_adjacent_add_edge (g : weighted_graph) (u v : Nat) (w : Int) (a b : Nat)
    (hu : u ∈ g.verts) (hv : v ∈ g.verts) :
    are_adjacent (add_edge g u v w) a b = true ↔
      (samePair (u, v, w) a b = true ∨ are_adjacent g a b = true) := by
  unfold add_edge
  rw [if_pos ⟨hu, hv⟩]
  unfold are_adjacent
  simp only [List.any_append, Bool.or_eq_true, List.any_eq_true, List.mem_filter,
    List.mem_singleton, Bool.not_eq_true']
  constructor
  · rintro (⟨e, ⟨he, _⟩, hsame⟩ | ⟨e, rfl, hsame⟩)
    · exact Or.inr ⟨e, he, hsame⟩
    · exact Or.inl hsame
  · rintro (h | ⟨e, he, hsame⟩)
    · exact Or.inr ⟨(u, v, w), rfl, h⟩
    · by_cases huv : samePair e u v = true
      · exact Or.inr ⟨(u, v, w), rfl, samePair_carry e u v a b w hsame huv⟩
      · refine Or.inl ⟨e, ⟨he, ?_⟩, hsame⟩
        revert huv
        cases samePair e u v <;> simp

theorem foldl_add_edge_verts (v : Nat) :
    ∀ (ps : List (Nat × Int)) (h : weighted_graph),
      (ps.foldl (fun h2 p => add_edge h2 v p.1 p.2) h).verts = h.verts := by
  intro ps
  induction ps with
  | nil => intro h; rfl
  | cons p ps ih =>
      intro h
      rw [List.foldl_cons, ih, add_edge_verts]

theorem foldl_add_edge_adj (v a b : Nat) :
    ∀ (ps : List (Nat × Int)) (h : weighted_graph),
      (are_adjacent (ps.foldl (fun h2 p => add_edge h2 v p.1 p.2) h) a b = true ↔
        (are_adjacent h a b = true ∨
          ∃ p ∈ ps, (v ∈ h.verts ∧ p.1 ∈ h.verts) ∧ samePair (v, p.1, p.2) a b = true)) := by
  intro ps
  induction ps with
  | nil => intro h; simp
  | cons p ps ih =>
      intro h
      rw [List.foldl_cons]
      by_cases hg : v ∈ h.verts ∧ p.1 ∈ h.verts
      · rw [ih (add_edge h v p.1 p.2)]
        rw [are_adjacent_add_edge h v p.1 p.2 a b hg.1 hg.2]
        simp only [add_edge_verts, List.mem_cons]
        constructor
        · rintro ((h1 | h1) | ⟨q, hq, hmem, hsame⟩)
          · exact Or.inr ⟨p, Or.inl rfl, hg, h1⟩
          · exact Or.inl h1
          · exact Or.inr ⟨q, Or.inr hq, hmem, hsame⟩
        · rintro (h1 | ⟨q, (rfl | hq), hmem, hsame⟩)
          · exact Or.inl (Or.inr h1)
          · exact Or.inl (Or.inl hsame)
          · exact Or.inr ⟨q, hq, hmem, hsame⟩
      · rw [add_edge_skip h v p.1 p.2 hg, ih h]
        constructor
        · rintro (h1 | ⟨q, hq, hmem, hsame⟩)
          · exact Or.inl h1
          · exact Or.inr ⟨q, List.mem_cons_of_mem p hq, hmem, hsame⟩
        · rintro (h1 | ⟨q, hq, hmem, hsame⟩)
          · exact Or.inl h1
          · rcases List.mem_cons.1 hq with rfl | hq'
            · exact absurd hmem hg
            · exact Or.inr ⟨q, hq', hmem, hsame⟩

theorem foldl_outer_verts (g : weighted_graph) :
    ∀ (vl : List Nat) (h : weighted_graph),
      ((vl.foldl (fun h v => (neighbours g v).foldl (fun h2 p => add_edge h2 v p.1 p.2) h) h)).verts
        = h.verts := by
  intro vl
  induction vl with
  | nil => intro h; rfl
  | cons v vl ih =>
      intro h
      rw [List.foldl_cons, ih, foldl_add_edge_verts]

theorem foldl_outer_adj (g : weighted_graph) (a b : Nat) :
    ∀ (vl : List Nat) (h : weighted_graph),
      (are_adjacent
          (vl.foldl (fun h v => (neighbours g v).foldl (fun h2 p => add_edge h2 v p.1 p.2) h) h)
          a b = true ↔
        (are_adjacent h a b = true ∨
          ∃ v ∈ vl, ∃ p ∈ neighbours g v,
            (v ∈ h.verts ∧ p.1 ∈ h.verts) ∧ samePair (v, p.1, p.2) a b = true)) := by
  intro vl
  induction vl with
  | nil => intro h; simp
  | cons v vl ih =>
      intro h
      rw [List.foldl_cons, ih, foldl_add_edge_adj]
      simp only [foldl_add_edge_verts, List.mem_cons]
      constructor
      · rintro ((h1 | ⟨p, hp, hmem, hsame⟩) | ⟨q, hq, p, hp, hmem, hsame⟩)
        · exact Or.inl h1
        · exact Or.inr ⟨v, Or.inl rfl, p, hp, hmem, hsame⟩
        · exact Or.inr ⟨q, Or.inr hq, p, hp, hmem, hsame⟩
      · rintro (h1 | ⟨q, (rfl | hq), p, hp, hmem, hsame⟩)
        · exact Or.inl (Or.inl h1)
        · exact Or.inl (Or.inr ⟨p, hp, hmem, hsame⟩)
        · exact Or.inr ⟨q, hq, p, hp, hmem, hsame⟩

theorem mem_neighbours (g : weighted_graph) (v : Nat) (p : Nat × Int) :
    p ∈ neighbours g v ↔
      p.1 ∈ g.verts ∧ are_adjacent g v p.1 = true ∧ p.2 = get_edge_weight g v p.1 := by
  unfold neighbours
  simp only [List.mem_map, List.mem_filter]
  constructor
  · rintro ⟨w, ⟨hw, hadj⟩, rfl⟩
    exact ⟨hw, hadj, rfl⟩
  · rintro ⟨h1, h2, h3⟩
    exact ⟨p.1, ⟨h1, h2⟩, by rw [← h3]⟩

theorem buildComponent_verts (g : weighted_graph) (s : Finset Nat)
    (hn : g.verts.Nodup) :
    (buildComponent g s).verts = g.verts.filter (fun v => decide (v ∈ s)) := by
  unfold buildComponent
  rw [foldl_outer_verts]
  obtain ⟨hv, _⟩ := foldl_add_vertex (g.verts.filter (fun v => decide (v ∈ s)))
    { verts := [], edges := [] } (by intro x _ hx; simp at hx) (hn.filter _)
  rw [hv]
  rfl

theorem buildComponent_adj (g : weighted_graph) (s : Finset Nat) (hn : g.verts.Nodup)
    (a b : Nat) :
    are_adjacent (buildComponent g s) a b = true ↔
      (a ∈ g.verts ∧ a ∈ s ∧ b ∈ g.verts ∧ b ∈ s ∧ are_adjacent g a b = true) := by
  have hbase := foldl_add_vertex (g.verts.filter (fun v => decide (v ∈ s)))
    { verts := [], edges := [] } (by intro x _ hx; simp at hx) (hn.filter _)
  unfold buildComponent
  rw [foldl_outer_adj]
  obtain ⟨hbv, hbe⟩ := hbase
  constructor
  · rintro (hadj | ⟨v, hv, p, hp, ⟨hvm, hpm⟩, hsame⟩)
    · exfalso
      unfold are_adjacent at hadj
      rw [hbe] at hadj
      simp at hadj
    · rw [hbv] at hvm hpm
      simp only [List.nil_append, List.mem_filter, decide_eq_true_eq] at hvm hpm
      rw [mem_neighbours] at hp
      rcases samePair_resolve _ a b hsame with ⟨ha, hb⟩ | ⟨ha, hb⟩
      · simp only at ha hb
        subst ha; subst hb
        exact ⟨hvm.1, hvm.2, hpm.1, hpm.2, hp.2.1⟩
      · simp only at ha hb
        subst ha; subst hb
        refine ⟨hpm.1, hpm.2, hvm.1, hvm.2, ?_⟩
        rw [are_adjacent_symm]
        exact hp.2.1
  · rintro ⟨hag, has, hbg, hbs, hadj⟩
    right
    refine ⟨a, List.mem_filter.2 ⟨hag, by simpa using has⟩,
      (b, get_edge_weight g a b), ?_, ?_, ?_⟩
    · rw [mem_neighbours]
      exact ⟨hbg, hadj, rfl⟩
    · rw [hbv]
      simp only [List.nil_append, List.mem_filter, decide_eq_true_eq]
      exact ⟨⟨hag, has⟩, ⟨hbg, hbs⟩⟩
    · simp [samePair]

/-! ### is_connected and the component loop -/

theorem depth_first_eq_verts_iff (g : weighted_graph) (v0 : Nat)
    (hn : g.verts.Nodup) (hv0 : v0 ∈ g.verts) :
    (depth_first g v0).card = g.verts.length ↔ ∀ b ∈ g.verts, Reach g v0 b := by
  constructor
  · intro hcard b hb
    have hsub := depth_first_subset_verts g v0 hv0
    have hfull : depth_first g v0 = g.verts.toFinset := by
      apply Finset.eq_of_subset_of_card_le hsub
      rw [List.toFinset_card_of_nodup hn, hcard]
    rw [← mem_depth_first_iff g v0 b hv0, hfull]
    exact List.mem_toFinset.2 hb
  · intro hall
    have hsub := depth_first_subset_verts g v0 hv0
    have hsup : g.verts.toFinset ⊆ depth_first g v0 := by
      intro b hb
      rw [mem_depth_first_iff g v0 b hv0]
      exact hall b (List.mem_toFinset.1 hb)
    rw [Finset.Subset.antisymm hsub hsup, List.toFinset_card_of_nodup hn]

theorem is_connected_nil (g : weighted_graph) (h : g.verts = []) :
    is_connected g = true := by
  unfold is_connected
  rw [h]

theorem is_connected_cons (g : weighted_graph) (v0 : Nat) (rest : List Nat)
    (h : g.verts = v0 :: rest) :
    is_connected g = ((depth_first g v0).card == num_vertices g) := by
  unfold is_connected
  rw [h]

theorem is_connected_true_iff (g : weighted_graph) (hwf : GraphWF g) :
    is_connected g = true ↔ ∀ a ∈ g.verts, ∀ b ∈ g.verts, Reach g a b := by
  rcases hv : g.verts with _ | ⟨v0, rest⟩
  · constructor
    · intro _ a ha
      simp at ha
    · intro _
      exact is_connected_nil g hv
  · have hv0 : v0 ∈ g.verts := by rw [hv]; simp
    have hn := hwf.1
    rw [is_connected_cons g v0 rest hv]
    simp only [beq_iff_eq]
    rw [show num_vertices g = g.verts.length from rfl,
      depth_first_eq_verts_iff g v0 hn hv0]
    constructor
    · intro h a ha b hb
      exact reach_trans g a v0 b
        (reach_symm g v0 a (h a (by rw [hv]; exact ha)))
        (h b (by rw [hv]; exact hb))
    · intro hall b hb
      exact hall v0 (by simp) b (by rw [← hv]; exact hb)

theorem is_connected_small (g : weighted_graph) (h : g.verts.length ≤ 1) :
    is_connected g = true := by
  rcases hv : g.verts with _ | ⟨v0, rest⟩
  · exact is_connected_nil g hv
  · have hrest : rest = [] := by
      rw [hv] at h
      simp only [List.length_cons] at h
      exact List.length_eq_zero.1 (by omega)
    subst hrest
    have hv0 : v0 ∈ g.verts := by rw [hv]; simp
    rw [is_connected_cons g v0 [] hv]
    have hsub := depth_first_subset_verts g v0 hv0
    have h1 : 1 ≤ (depth_first g v0).card :=
      Finset.card_pos.2 ⟨v0, mem_depth_first_self g v0⟩
    have h2 : (depth_first g v0).card ≤ g.verts.toFinset.card := Finset.card_le_card hsub
    have h3 : g.verts.toFinset.card ≤ g.verts.length := List.toFinset_card_le _
    have h4 : num_vertices g = 1 := by
      unfold num_vertices
      rw [hv]
      rfl
    have h5 : g.verts.length = 1 := by
      rw [hv]
      rfl
    have h6 : (depth_first g v0).card = 1 := by omega
    simp [h6, h4]

theorem depth_first_subset_of_mem (g : weighted_graph) (u v : Nat)
    (hu : u ∈ g.verts) (hv : v ∈ depth_first g u) :
    depth_first g v ⊆ depth_first g u := by
  have hvg : v ∈ g.verts := List.mem_toFinset.1 (depth_first_subset_verts g u hu hv)
  intro x hx
  rw [mem_depth_first_iff g v x hvg] at hx
  rw [mem_depth_first_iff g u v hu] at hv
  rw [mem_depth_first_iff g u x hu]
  exact reach_trans g u v x hv hx

theorem depth_first_mem_symm (g : weighted_graph) (u v : Nat)
    (hu : u ∈ g.verts) (hv : v ∈ depth_first g u) :
    u ∈ depth_first g v := by
  have hvg : v ∈ g.verts := List.mem_toFinset.1 (depth_first_subset_verts g u hu hv)
  rw [mem_depth_first_iff g u v hu] at hv
  rw [mem_depth_first_iff g v u hvg]
  exact reach_symm g u v hv

theorem depth_first_disjoint_visited (g : weighted_graph) (u : Nat) (visited : Finset Nat)
    (hu : u ∈ g.verts) (hnv : u ∉ visited)
    (hclosed : ∀ w ∈ visited, depth_first g w ⊆ visited) :
    Disjoint (depth_first g u) visited := by
  rw [Finset.disjoint_left]
  intro x hx hxv
  have : u ∈ depth_first g x := depth_first_mem_symm g u x hu hx
  exact hnv (hclosed x hxv this)

theorem buildComponent_verts_toFinset (g : weighted_graph) (hn : g.verts.Nodup)
    (u : Nat) (hu : u ∈ g.verts) :
    (buildComponent g (depth_first g u)).verts.toFinset = depth_first g u := by
  rw [buildComponent_verts g _ hn]
  ext x
  simp only [List.mem_toFinset, List.mem_filter, decide_eq_true_eq]
  constructor
  · exact fun h => h.2
  · intro h
    exact ⟨List.mem_toFinset.1 (depth_first_subset_verts g u hu h), h⟩

theorem closed_union_df (g : weighted_graph) (u : Nat) (hu : u ∈ g.verts)
    (visited : Finset Nat) (hclosed : ∀ w ∈ visited, depth_first g w ⊆ visited) :
    ∀ w ∈ visited ∪ depth_first g u, depth_first g w ⊆ visited ∪ depth_first g u := by
  intro w hw
  rcases Finset.mem_union.1 hw with hw | hw
  · exact (hclosed w hw).trans Finset.subset_union_left
  · exact (depth_first_subset_of_mem g u w hu hw).trans Finset.subset_union_right

theorem ccLoop_shape (g : weighted_graph) :
    ∀ rest visited c, c ∈ ccLoop g rest visited →
      ∃ u, u ∈ rest ∧ u ∉ visited ∧ c = buildComponent g (depth_first g u) := by
  intro rest
  induction rest with
  | nil => intro visited c hc; simp [ccLoop] at hc
  | cons u rest ih =>
      intro visited c hc
      unfold ccLoop at hc
      by_cases hu : u ∈ visited
      · rw [if_pos hu] at hc
        obtain ⟨w, hw1, hw2, hw3⟩ := ih visited c hc
        exact ⟨w, List.mem_cons_of_mem u hw1, hw2, hw3⟩
      · rw [if_neg hu] at hc
        rcases List.mem_cons.1 hc with rfl | hc'
        · exact ⟨u, by simp, hu, rfl⟩
        · obtain ⟨w, hw1, hw2, hw3⟩ := ih _ c hc'
          refine ⟨w, List.mem_cons_of_mem u hw1, fun hwv => hw2 ?_, hw3⟩
          exact Finset.mem_union_left _ hwv

theorem ccLoop_eq_nil_iff (g : weighted_graph) :
    ∀ rest visited, ccLoop g rest visited = [] ↔ ∀ u ∈ rest, u ∈ visited := by
  intro rest
  induction rest with
  | nil => intro visited; simp [ccLoop]
  | cons u rest ih =>
      intro visited
      unfold ccLoop
      by_cases hu : u ∈ visited
      · rw [if_pos hu, ih visited]
        constructor
        · intro h x hx
          rcases List.mem_cons.1 hx with rfl | hx'
          · exact hu
          · exact h x hx'
        · intro h x hx
          exact h x (List.mem_cons_of_mem u hx)
      · rw [if_neg hu]
        constructor
        · intro h
          simp at h
        · intro h
          exact absurd (h u (by simp)) hu

theorem ccLoop_union (g : weighted_graph) (hn : g.verts.Nodup) :
    ∀ rest visited,
      (∀ u ∈ rest, u ∈ g.verts) →
      (∀ w ∈ visited, depth_first g w ⊆ visited) →
      ((ccLoop g rest visited).map (fun c => c.verts.toFinset)).foldr (· ∪ ·) ∅ =
        rest.foldr (fun u acc => depth_first g u ∪ acc) ∅ \ visited := by
  intro rest
  induction rest with
  | nil =>
      intro visited _ _
      simp [ccLoop]
  | cons u rest ih =>
      intro visited hrest hclosed
      have hu : u ∈ g.verts := hrest u (by simp)
      unfold ccLoop
      by_cases huv : u ∈ visited
      · rw [if_pos huv]
        rw [ih visited (fun x hx => hrest x (List.mem_cons_of_mem u hx)) hclosed]
        have hdfsub : depth_first g u ⊆ visited := hclosed u huv
        ext x
        simp only [Finset.mem_sdiff, List.foldr_cons, Finset.mem_union]
        constructor
        · rintro ⟨hx, hnv⟩
          exact ⟨Or.inr hx, hnv⟩
        · rintro ⟨hx | hx, hnv⟩
          · exact absurd (hdfsub hx) hnv
          · exact ⟨hx, hnv⟩
      · rw [if_neg huv]
        have hclosed' := closed_union_df g u hu visited hclosed
        rw [List.map_cons, List.foldr_cons,
          ih (visited ∪ depth_first g u)
            (fun x hx => hrest x (List.mem_cons_of_mem u hx)) hclosed',
          buildComponent_verts_toFinset g hn u hu]
        have hdisj : ∀ x ∈ depth_first g u, x ∉ visited := by
          intro x hx
          exact Finset.disjoint_left.1
            (depth_first_disjoint_visited g u visited hu huv hclosed) hx
        ext x
        simp only [Finset.mem_union, Finset.mem_sdiff, List.foldr_cons]
        constructor
        · rintro (hx | ⟨hx, hnx⟩)
          · exact ⟨Or.inl hx, hdisj x hx⟩
          · push_neg at hnx
            exact ⟨Or.inr hx, hnx.1⟩
        · rintro ⟨hx | hx, hnv⟩
          · exact Or.inl hx
          · by_cases hdf : x ∈ depth_first g u
            · exact Or.inl hdf
            · refine Or.inr ⟨hx, ?_⟩
              push_neg
              exact ⟨hnv, hdf⟩

theorem ccLoop_disjoint (g : weighted_graph) (hn : g.verts.Nodup) :
    ∀ rest visited,
      (∀ u ∈ rest, u ∈ g.verts) →
      (∀ w ∈ visited, depth_first g w ⊆ visited) →
      ((ccLoop g rest visited).Pairwise
          (fun c₁ c₂ => Disjoint c₁.verts.toFinset c₂.verts.toFinset) ∧
        ∀ c ∈ ccLoop g rest visited, Disjoint c.verts.toFinset visited) := by
  intro rest
  induction rest with
  | nil => intro visited _ _; simp [ccLoop]
  | cons u rest ih =>
      intro visited hrest hclosed
      have hu : u ∈ g.verts := hrest u (by simp)
      unfold ccLoop
      by_cases huv : u ∈ visited
      · rw [if_pos huv]
        exact ih visited (fun x hx => hrest x (List.mem_cons_of_mem u hx)) hclosed
      · rw [if_neg huv]
        have hclosed' := closed_union_df g u hu visited hclosed
        obtain ⟨ihp, ihd⟩ := ih (visited ∪ depth_first g u)
          (fun x hx => hrest x (List.mem_cons_of_mem u hx)) hclosed'
        constructor
        · rw [List.pairwise_cons]
          refine ⟨?_, ihp⟩
          intro c hc
          have hcdisj := ihd c hc
          rw [buildComponent_verts_toFinset g hn u hu]
          have : Disjoint c.verts.toFinset (depth_first g u) :=
            Finset.disjoint_of_subset_right Finset.subset_union_right hcdisj
          exact this.symm
        · intro c hc
          rcases List.mem_cons.1 hc with rfl | hc'
          · rw [buildComponent_verts_toFinset g hn u hu]
            exact depth_first_disjoint_visited g u visited hu huv hclosed
          · exact Finset.disjoint_of_subset_right Finset.subset_union_left (ihd c hc')

theorem mem_foldr_df (g : weighted_graph) (l : List Nat) (x : Nat) :
    x ∈ l.foldr (fun u acc => depth_first g u ∪ acc) ∅ ↔ ∃ u ∈ l, x ∈ depth_first g u := by
  induction l with
  | nil => simp
  | cons a l ih => simp [ih]

theorem foldr_df_verts (g : weighted_graph) :
    g.verts.foldr (fun u acc => depth_first g u ∪ acc) ∅ = g.verts.toFinset := by
  ext x
  rw [mem_foldr_df]
  constructor
  · rintro ⟨u, hu, hx⟩
    exact depth_first_subset_verts g u hu hx
  · intro hx
    rw [List.mem_toFinset] at hx
    exact ⟨x, hx, mem_depth_first_self g x⟩

/-- C2: for every well-formed graph, the vertex sets of the graphs returned by
`connected_components` are pairwise disjoint and their union is exactly the
vertex set of the input graph. -/
theorem C2_components_partition (g : weighted_graph) (hwf : GraphWF g) :
    ((connected_components g).map (fun c => c.verts.toFinset)).foldr (· ∪ ·) ∅ =
      g.verts.toFinset ∧
    (connected_components g).Pairwise
      (fun c₁ c₂ => Disjoint c₁.verts.toFinset c₂.verts.toFinset) := by
  unfold connected_components
  constructor
  · rw [ccLoop_union g hwf.1 g.verts ∅ (fun u hu => hu) (by simp)]
    rw [foldr_df_verts g]
    simp
  · exact (ccLoop_disjoint g hwf.1 g.verts ∅ (fun u hu => hu) (by simp)).1

/-- Witness for C2 at the spec's triangle scenario. -/
theorem C2_components_partition_witness :
    GraphWF exGtri ∧
    (((connected_components exGtri).map (fun c => c.verts.toFinset)).foldr (· ∪ ·) ∅ =
        exGtri.verts.toFinset ∧
      (connected_components exGtri).Pairwise
        (fun c₁ c₂ => Disjoint c₁.verts.toFinset c₂.verts.toFinset)) :=
  ⟨by decide, C2_components_partition exGtri (by decide)⟩

theorem connected_components_nil (g : weighted_graph) (h : g.verts = []) :
    connected_components g = [] := by
  unfold connected_components
  rw [h]
  rfl

theorem connected_components_cons (g : weighted_graph) (v0 : Nat) (rest : List Nat)
    (h : g.verts = v0 :: rest) :
    connected_components g =
      buildComponent g (depth_first g v0) :: ccLoop g rest (depth_first g v0) := by
  unfold connected_components
  rw [h]
  simp only [ccLoop]
  rw [if_neg (Finset.not_mem_empty v0), Finset.empty_union]

/-- C3: `is_connected` returns true exactly when `connected_components` returns a
single component or the graph is empty; on the empty graph the component list is
empty and `is_connected` still returns true. -/
theorem C3_connected_iff_one_component (g : weighted_graph) (hwf : GraphWF g) :
    (is_connected g = true ↔
      ((connected_components g).length = 1 ∨ g.verts = [])) ∧
    (g.verts = [] → connected_components g = [] ∧ is_connected g = true) := by
  constructor
  · rcases hv : g.verts with _ | ⟨v0, rest⟩
    · rw [is_connected_nil g hv, connected_components_nil g hv]
      simp
    · have hv0 : v0 ∈ g.verts := by rw [hv]; simp
      rw [connected_components_cons g v0 rest hv, is_connected_cons g v0 rest hv]
      simp only [beq_iff_eq, List.length_cons, hv]
      rw [show num_vertices g = g.verts.length from rfl,
        depth_first_eq_verts_iff g v0 hwf.1 hv0]
      have hnil : (v0 :: rest) ≠ [] := by simp
      constructor
      · intro hall
        left
        have : ccLoop g rest (depth_first g v0) = [] := by
          rw [ccLoop_eq_nil_iff]
          intro x hx
          rw [mem_depth_first_iff g v0 x hv0]
          exact hall x (by rw [hv]; exact List.mem_cons_of_mem v0 hx)
        rw [this]
        rfl
      · rintro (hlen | habs)
        · have hloop : ccLoop g rest (depth_first g v0) = [] := by
            have := List.length_eq_zero.1 (by omega : (ccLoop g rest (depth_first g v0)).length = 0)
            exact this
          have hrest := (ccLoop_eq_nil_iff g rest (depth_first g v0)).1 hloop
          intro b hb
          rw [← mem_depth_first_iff g v0 b hv0]
          rw [hv] at hb
          rcases List.mem_cons.1 hb with rfl | hb'
          · exact mem_depth_first_self g b
          · exact hrest b hb'
        · exact absurd habs hnil
  · intro h
    exact ⟨connected_components_nil g h, is_connected_nil g h⟩

/-- Witness for C3 at the spec's triangle scenario. -/
theorem C3_connected_iff_one_component_witness :
    GraphWF exGtri ∧
    ((is_connected exGtri = true ↔
        ((connected_components exGtri).length = 1 ∨ exGtri.verts = [])) ∧
      (exGtri.verts = [] → connected_components exGtri = [] ∧ is_connected exGtri = true)) :=
  ⟨by decide, C3_connected_iff_one_component exGtri (by decide)⟩

theorem add_edge_wf_edges (g : weighted_graph) (u v : Nat) (w : Int)
    (h : ∀ e ∈ g.edges, e.1 ∈ g.verts ∧ e.2.1 ∈ g.verts) :
    ∀ e ∈ (add_edge g u v w).edges, e.1 ∈ (add_edge g u v w).verts ∧
      e.2.1 ∈ (add_edge g u v w).verts := by
  rw [add_edge_verts]
  unfold add_edge
  by_cases hg : u ∈ g.verts ∧ v ∈ g.verts
  · rw [if_pos hg]
    intro e he
    simp only [List.mem_append, List.mem_singleton] at he
    rcases he with he | rfl
    · exact h e (List.mem_of_mem_filter he)
    · exact hg
  · rw [if_neg hg]
    exact h

theorem foldl_add_edge_wf (v : Nat) :
    ∀ (ps : List (Nat × Int)) (h : weighted_graph),
      (∀ e ∈ h.edges, e.1 ∈ h.verts ∧ e.2.1 ∈ h.verts) →
      ∀ e ∈ (ps.foldl (fun h2 p => add_edge h2 v p.1 p.2) h).edges,
        e.1 ∈ (ps.foldl (fun h2 p => add_edge h2 v p.1 p.2) h).verts ∧
        e.2.1 ∈ (ps.foldl (fun h2 p => add_edge h2 v p.1 p.2) h).verts := by
  intro ps
  induction ps with
  | nil => intro h hwf; exact hwf
  | cons p ps ih =>
      intro h hwf
      rw [List.foldl_cons]
      exact ih (add_edge h v p.1 p.2) (add_edge_wf_edges h v p.1 p.2 hwf)

theorem foldl_outer_wf (g : weighted_graph) :
    ∀ (vl : List Nat) (h : weighted_graph),
      (∀ e ∈ h.edges, e.1 ∈ h.verts ∧ e.2.1 ∈ h.verts) →
      ∀ e ∈ ((vl.foldl
          (fun h v => (neighbours g v).foldl (fun h2 p => add_edge h2 v p.1 p.2) h) h)).edges,
        e.1 ∈ ((vl.foldl
            (fun h v => (neighbours g v).foldl (fun h2 p => add_edge h2 v p.1 p.2) h) h)).verts ∧
        e.2.1 ∈ ((vl.foldl
            (fun h v => (neighbours g v).foldl (fun h2 p => add_edge h2 v p.1 p.2) h) h)).verts := by
  intro vl
  induction vl with
  | nil => intro h hwf; exact hwf
  | cons v vl ih =>
      intro h hwf
      rw [List.foldl_cons]
      exact ih _ (foldl_add_edge_wf v (neighbours g v) h hwf)

theorem buildComponent_wf (g : weighted_graph) (s : Finset Nat) (hn : g.verts.Nodup) :
    GraphWF (buildComponent g s) := by
  obtain ⟨hbv, hbe⟩ := foldl_add_vertex (g.verts.filter (fun v => decide (v ∈ s)))
    { verts := [], edges := [] } (by intro x _ hx; simp at hx) (hn.filter _)
  refine ⟨?_, ?_⟩
  · rw [buildComponent_verts g s hn]
    exact hn.filter _
  · have hbase : ∀ e ∈ (((g.verts.filter (fun v => decide (v ∈ s))).foldl add_vertex
        { verts := [], edges := [] })).edges,
        e.1 ∈ (((g.verts.filter (fun v => decide (v ∈ s))).foldl add_vertex
          { verts := [], edges := [] })).verts ∧
        e.2.1 ∈ (((g.verts.filter (fun v => decide (v ∈ s))).foldl add_vertex
          { verts := [], edges := [] })).verts := by
      rw [hbe]
      intro e he
      simp at he
    exact foldl_outer_wf g (g.verts.filter (fun v => decide (v ∈ s))) _ hbase

theorem walk_vertices_in_closed (g : weighted_graph) (S : Finset Nat)
    (hclosed : ∀ w v, w ∈ S → are_adjacent g w v = true → v ∈ g.verts → v ∈ S) :
    ∀ l m, walkB g (m :: l) = true → m ∈ S → ∀ x ∈ m :: l, x ∈ S := by
  intro l
  induction l with
  | nil =>
      intro m _ hm x hx
      simp only [List.mem_singleton] at hx
      rwa [hx]
  | cons b t ih =>
      intro m hwalk hm x hx
      simp only [walkB, Bool.and_eq_true, decide_eq_true_eq] at hwalk
      have hb : b ∈ g.verts := walkB_head_mem g b t hwalk.2
      have hbS : b ∈ S := hclosed m b hm hwalk.1.2 hb
      rcases List.mem_cons.1 hx with rfl | hx'
      · exact hm
      · exact ih b hwalk.2 hbS x hx'

theorem walkB_into_component (g : weighted_graph) (hn : g.verts.Nodup)
    (u : Nat) (_hu : u ∈ g.verts) :
    ∀ l, walkB g l = true → (∀ x ∈ l, x ∈ depth_first g u) →
      walkB (buildComponent g (depth_first g u)) l = true := by
  intro l
  induction l with
  | nil => intro h _; simp [walkB] at h
  | cons a t ih =>
      intro hwalk hmem
      have hag : a ∈ g.verts := walkB_head_mem g a t hwalk
      have hamem : a ∈ (buildComponent g (depth_first g u)).verts := by
        rw [buildComponent_verts g _ hn, List.mem_filter]
        exact ⟨hag, by simpa using hmem a (by simp)⟩
      cases t with
      | nil => simpa [walkB] using hamem
      | cons b t' =>
          simp only [walkB, Bool.and_eq_true, decide_eq_true_eq] at hwalk ⊢
          have hbg : b ∈ g.verts := walkB_head_mem g b t' hwalk.2
          have hadj : are_adjacent (buildComponent g (depth_first g u)) a b = true := by
            rw [buildComponent_adj g _ hn a b]
            exact ⟨hag, hmem a (by simp), hbg, hmem b (by simp), hwalk.1.2⟩
          exact ⟨⟨hamem, hadj⟩, ih hwalk.2 (fun x hx => hmem x (List.mem_cons_of_mem a hx))⟩

theorem component_connected (g : weighted_graph) (hwf : GraphWF g)
    (u : Nat) (hu : u ∈ g.verts) :
    is_connected (buildComponent g (depth_first g u)) = true := by
  have hn := hwf.1
  rw [is_connected_true_iff _ (buildComponent_wf g (depth_first g u) hn)]
  intro a ha b hb
  rw [buildComponent_verts g _ hn, List.mem_filter, decide_eq_true_eq] at ha hb
  -- a and b are both reachable from u in g, hence joined by a walk lying in the component
  have hra : Reach g u a := (mem_depth_first_iff g u a hu).1 ha.2
  have hrb : Reach g u b := (mem_depth_first_iff g u b hu).1 hb.2
  have hab : Reach g a b := reach_trans g a u b (reach_symm g u a hra) hrb
  obtain ⟨l, hwalk, hh, hl⟩ := hab
  cases l with
  | nil => simp at hh
  | cons m rest =>
      simp only [List.head?_cons, Option.some.injEq] at hh
      subst hh
      have hclosed : ∀ w v, w ∈ depth_first g u → are_adjacent g w v = true →
          v ∈ g.verts → v ∈ depth_first g u :=
        fun w v hw hadj hv => depth_first_closed g u w v hw hadj hv
      have hallmem := walk_vertices_in_closed g (depth_first g u) hclosed rest m hwalk ha.2
      have hcw := walkB_into_component g hn u hu (m :: rest) hwalk hallmem
      exact ⟨m :: rest, hcw, rfl, hl⟩

/-- C10: every graph in the list returned by `connected_components` is non-empty
and connected. -/
theorem C10_components_connected (g : weighted_graph) (hwf : GraphWF g) :
    ∀ c ∈ connected_components g, is_empty c = false ∧ is_connected c = true := by
  intro c hc
  obtain ⟨u, hu, _, rfl⟩ := ccLoop_shape g g.verts ∅ c hc
  refine ⟨?_, component_connected g hwf u hu⟩
  have humem : u ∈ (buildComponent g (depth_first g u)).verts := by
    rw [buildComponent_verts g _ hwf.1, List.mem_filter, decide_eq_true_eq]
    exact ⟨hu, mem_depth_first_self g u⟩
  unfold is_empty num_vertices
  simp only [beq_eq_false_iff_ne, ne_eq, List.length_eq_zero]
  intro h
  rw [h] at humem
  exact List.not_mem_nil u humem

/-- Witness for C10 at the spec's triangle scenario. -/
theorem C10_components_connected_witness :
    GraphWF exGtri ∧
    ∀ c ∈ connected_components exGtri, is_empty c = false ∧ is_connected c = true :=
  ⟨by decide, C10_components_connected exGtri (by decide)⟩

/-- C4: on the zero-vertex graph every entry point completes and returns its
trivial value: `is_empty` true, `is_connected` true, `connected_components`
the empty list, `dijkstras` (for any source) the empty map, and
`articulation_points` the empty list. -/
theorem C4_empty_graph_boundary (g : weighted_graph) (h : g.verts = []) :
    is_empty g = true ∧ is_connected g = true ∧ connected_components g = [] ∧
    (∀ s, dijkstras g s = []) ∧ articulation_points g = [] := by
  have hnum : num_vertices g = 0 := by
    unfold num_vertices
    rw [h]
    rfl
  refine ⟨?_, is_connected_nil g h, connected_components_nil g h, ?_, ?_⟩
  · unfold is_empty
    rw [hnum]
    rfl
  · intro s
    unfold dijkstras
    rw [hnum]
    show dijkstraInit g s = []
    unfold dijkstraInit
    rw [if_pos ((is_empty_iff g).2 h), h]
    rfl
  · unfold articulation_points
    rw [h]
    rfl

/-- Witness for C4 at the zero-vertex graph. -/
theorem C4_empty_graph_boundary_witness :
    exGempty.verts = [] ∧
    (is_empty exGempty = true ∧ is_connected exGempty = true ∧
      connected_components exGempty = [] ∧
      (∀ s, dijkstras exGempty s = []) ∧ articulation_points exGempty = []) :=
  ⟨rfl, C4_empty_graph_boundary exGempty rfl⟩

/-! ### Articulation points -/

theorem remove_vertex_wf (g : weighted_graph) (v : Nat) (hwf : GraphWF g) :
    GraphWF (remove_vertex g v) := by
  constructor
  · exact hwf.1.filter _
  · intro e he
    unfold remove_vertex at he ⊢
    simp only [List.mem_filter, Bool.and_eq_true, bne_iff_ne, ne_eq] at he ⊢
    obtain ⟨hmem, h1, h2⟩ := he
    obtain ⟨hv1, hv2⟩ := hwf.2 e hmem
    exact ⟨⟨hv1, h1⟩, hv2, h2⟩

theorem mem_articulation_points_iff (g : weighted_graph) (v : Nat) :
    v ∈ articulation_points g ↔
      v ∈ g.verts ∧ is_connected (remove_vertex g v) = false := by
  unfold articulation_points
  rw [List.mem_filter]
  simp [Bool.not_eq_true']

theorem remove_vertex_shrinks (g : weighted_graph) (v : Nat) (hv : v ∈ g.verts) :
    (remove_vertex g v).verts.length < g.verts.length := by
  unfold remove_vertex
  simp only
  apply List.length_filter_lt_length_iff_exists.2
  exact ⟨v, hv, by simp⟩

/-- C6: a vertex of the graph is reported by `articulation_points` exactly when
deleting it from a copy leaves a remainder that is disconnected (two remaining
vertices joined by no path); consequently graphs with at most two vertices never
report any articulation point. -/
theorem C6_articulation_points_iff (g : weighted_graph) (hwf : GraphWF g)
    (v : Nat) (hv : v ∈ g.verts) :
    (v ∈ articulation_points g ↔
      ∃ a ∈ (remove_vertex g v).verts, ∃ b ∈ (remove_vertex g v).verts,
        ¬ Reach (remove_vertex g v) a b) ∧
    (g.verts.length ≤ 2 → articulation_points g = []) := by
  constructor
  · rw [mem_articulation_points_iff g v]
    have hwf' := remove_vertex_wf g v hwf
    constructor
    · rintro ⟨_, hfalse⟩
      by_contra hno
      push_neg at hno
      have : is_connected (remove_vertex g v) = true :=
        (is_connected_true_iff _ hwf').2 hno
      rw [this] at hfalse
      simp at hfalse
    · rintro ⟨a, ha, b, hb, hnr⟩
      refine ⟨hv, ?_⟩
      by_contra htrue
      have : is_connected (remove_vertex g v) = true := by
        revert htrue
        cases is_connected (remove_vertex g v) <;> simp
      exact hnr ((is_connected_true_iff _ hwf').1 this a ha b hb)
  · intro hlen
    unfold articulation_points
    rw [List.filter_eq_nil_iff]
    intro x hx
    have hsmall : (remove_vertex g x).verts.length ≤ 1 := by
      have := remove_vertex_shrinks g x hx
      omega
    rw [is_connected_small (remove_vertex g x) hsmall]
    simp

/-- Witness for C6 at the middle vertex of the spec's path scenario. -/
theorem C6_articulation_points_iff_witness :
    GraphWF exGpath ∧ 1 ∈ exGpath.verts ∧
    ((1 ∈ articulation_points exGpath ↔
        ∃ a ∈ (remove_vertex exGpath 1).verts, ∃ b ∈ (remove_vertex exGpath 1).verts,
          ¬ Reach (remove_vertex exGpath 1) a b) ∧
      (exGpath.verts.length ≤ 2 → articulation_points exGpath = [])) :=
  ⟨by decide, by decide, C6_articulation_points_iff exGpath (by decide) 1 (by decide)⟩

/-! ### min_distance: the linear scan characterised -/

theorem md_fold_some_stays (dij : DMap) (spt : Finset Nat) :
    ∀ (l : List Nat) (m : Int) (u : Nat),
      ∃ w, ((l.foldl (fun (acc : Int × Option Nat) v =>
        if v ∉ spt ∧ mapAt dij v ≤ acc.1 then (mapAt dij v, some v) else acc)
        (m, some u)).2 = some w) := by
  intro l
  induction l with
  | nil => intro m u; exact ⟨u, rfl⟩
  | cons v l ih =>
      intro m u
      rw [List.foldl_cons]
      by_cases hc : v ∉ spt ∧ mapAt dij v ≤ m
      · rw [if_pos hc]
        exact ih (mapAt dij v) v
      · rw [if_neg hc]
        exact ih m u

theorem md_fold_winner (dij : DMap) (spt : Finset Nat) :
    ∀ (l : List Nat) (m : Int) (o : Option Nat),
      (∀ u0, o = some u0 → u0 ∉ spt) →
      ∀ u, ((l.foldl (fun (acc : Int × Option Nat) v =>
          if v ∉ spt ∧ mapAt dij v ≤ acc.1 then (mapAt dij v, some v) else acc)
          (m, o)).2 = some u) →
        u ∉ spt ∧ (u ∈ l ∨ o = some u) := by
  intro l
  induction l with
  | nil =>
      intro m o ho u hu
      exact ⟨ho u hu, Or.inr hu⟩
  | cons v l ih =>
      intro m o ho u hu
      rw [List.foldl_cons] at hu
      by_cases hc : v ∉ spt ∧ mapAt dij v ≤ m
      · rw [if_pos hc] at hu
        obtain ⟨hns, hmem⟩ := ih (mapAt dij v) (some v)
          (fun u0 h0 => by rw [Option.some.injEq] at h0; rw [← h0]; exact hc.1) u hu
        rcases hmem with hm | hm
        · exact ⟨hns, Or.inl (List.mem_cons_of_mem v hm)⟩
        · rw [Option.some.injEq] at hm
          exact ⟨hns, Or.inl (by rw [hm]; simp)⟩
      · rw [if_neg hc] at hu
        obtain ⟨hns, hmem⟩ := ih m o ho u hu
        rcases hmem with hm | hm
        · exact ⟨hns, Or.inl (List.mem_cons_of_mem v hm)⟩
        · exact ⟨hns, Or.inr hm⟩

theorem md_fold_value (dij : DMap) (spt : Finset Nat) :
    ∀ (l : List Nat) (m : Int) (o : Option Nat),
      (∀ u0, o = some u0 → m = mapAt dij u0) →
      ∀ u, ((l.foldl (fun (acc : Int × Option Nat) v =>
          if v ∉ spt ∧ mapAt dij v ≤ acc.1 then (mapAt dij v, some v) else acc)
          (m, o)).2 = some u) →
        ((l.foldl (fun (acc : Int × Option Nat) v =>
          if v ∉ spt ∧ mapAt dij v ≤ acc.1 then (mapAt dij v, some v) else acc)
          (m, o)).1 = mapAt dij u) := by
  intro l
  induction l with
  | nil =>
      intro m o ho u hu
      exact ho u hu
  | cons v l ih =>
      intro m o ho u hu
      rw [List.foldl_cons] at hu ⊢
      by_cases hc : v ∉ spt ∧ mapAt dij v ≤ m
      · rw [if_pos hc] at hu ⊢
        exact ih (mapAt dij v) (some v)
          (fun u0 h0 => by rw [Option.some.injEq] at h0; rw [h0]) u hu
      · rw [if_neg hc] at hu ⊢
        exact ih m o ho u hu

theorem md_fold_min (dij : DMap) (spt : Finset Nat) :
    ∀ (l : List Nat) (m : Int) (o : Option Nat),
      ((l.foldl (fun (acc : Int × Option Nat) v =>
          if v ∉ spt ∧ mapAt dij v ≤ acc.1 then (mapAt dij v, some v) else acc)
          (m, o)).1 ≤ m) ∧
      (∀ v ∈ l, v ∉ spt →
        ((l.foldl (fun (acc : Int × Option Nat) v =>
          if v ∉ spt ∧ mapAt dij v ≤ acc.1 then (mapAt dij v, some v) else acc)
          (m, o)).1 ≤ mapAt dij v)) := by
  intro l
  induction l with
  | nil => intro m o; exact ⟨le_refl m, fun v hv => absurd hv (List.not_mem_nil v)⟩
  | cons v l ih =>
      intro m o
      rw [List.foldl_cons]
      by_cases hc : v ∉ spt ∧ mapAt dij v ≤ m
      · rw [if_pos hc]
        obtain ⟨ih1, ih2⟩ := ih (mapAt dij v) (some v)
        refine ⟨le_trans ih1 hc.2, ?_⟩
        intro x hx hxs
        rcases List.mem_cons.1 hx with rfl | hx'
        · exact ih1
        · exact ih2 x hx' hxs
      · rw [if_neg hc]
        obtain ⟨ih1, ih2⟩ := ih m o
        refine ⟨ih1, ?_⟩
        intro x hx hxs
        rcases List.mem_cons.1 hx with rfl | hx'
        · push_neg at hc
          exact le_of_lt (lt_of_le_of_lt ih1 (hc hxs))
        · exact ih2 x hx' hxs

theorem md_fold_some_of_candidate (dij : DMap) (spt : Finset Nat) :
    ∀ (l : List Nat) (m : Int),
      (∃ v ∈ l, v ∉ spt ∧ mapAt dij v ≤ m) →
      ∃ u, ((l.foldl (fun (acc : Int × Option Nat) v =>
          if v ∉ spt ∧ mapAt dij v ≤ acc.1 then (mapAt dij v, some v) else acc)
          (m, (none : Option Nat))).2 = some u) := by
  intro l
  induction l with
  | nil => rintro m ⟨v, hv, _⟩; simp at hv
  | cons v l ih =>
      rintro m ⟨x, hx, hxs, hxle⟩
      rw [List.foldl_cons]
      by_cases hc : v ∉ spt ∧ mapAt dij v ≤ m
      · rw [if_pos hc]
        exact md_fold_some_stays dij spt l (mapAt dij v) v
      · rw [if_neg hc]
        rcases List.mem_cons.1 hx with rfl | hx'
        · exact absurd ⟨hxs, hxle⟩ hc
        · exact ih m ⟨x, hx', hxs, hxle⟩

theorem min_distance_some (g : weighted_graph) (dij : DMap) (spt : Finset Nat)
    (h : ∃ v ∈ g.verts, v ∉ spt ∧ mapAt dij v ≤ INT_MAX) :
    ∃ u, min_distance g dij spt = some u := by
  unfold min_distance
  exact md_fold_some_of_candidate dij spt g.verts INT_MAX h

theorem min_distance_spec (g : weighted_graph) (dij : DMap) (spt : Finset Nat) (u : Nat)
    (h : min_distance g dij spt = some u) :
    u ∉ spt ∧ u ∈ g.verts ∧ ∀ v ∈ g.verts, v ∉ spt → mapAt dij u ≤ mapAt dij v := by
  unfold min_distance at h
  obtain ⟨hns, hmem⟩ := md_fold_winner dij spt g.verts INT_MAX none (by simp) u h
  have hval := md_fold_value dij spt g.verts INT_MAX none (by simp) u h
  obtain ⟨_, hmin⟩ := md_fold_min dij spt g.verts INT_MAX none
  refine ⟨hns, ?_, ?_⟩
  · rcases hmem with hm | hm
    · exact hm
    · simp at hm
  · intro v hv hvs
    rw [← hval]
    exact hmin v hv hvs

/-! ### The relaxation loop characterised -/

theorem relax_fold_spec (g : weighted_graph) (u : Nat) (spt' : Finset Nat)
    (hus : u ∈ spt') :
    ∀ (l : List Nat) (m : DMap), l.Nodup → (∀ v ∈ l, v ∈ mapKeys m) →
      (mapKeys (l.foldl
        (fun m v =>
          if v ∉ spt' ∧ are_adjacent g u v = true ∧ mapAt m u ≠ INT_MAX ∧
              mapAt m u + get_edge_weight g u v < mapAt m v
          then mapSet m v (mapAt m u + get_edge_weight g u v) else m) m) = mapKeys m) ∧
      (mapAt (l.foldl
        (fun m v =>
          if v ∉ spt' ∧ are_adjacent g u v = true ∧ mapAt m u ≠ INT_MAX ∧
              mapAt m u + get_edge_weight g u v < mapAt m v
          then mapSet m v (mapAt m u + get_edge_weight g u v) else m) m) u = mapAt m u) ∧
      (∀ y, y ∉ l → mapAt (l.foldl
        (fun m v =>
          if v ∉ spt' ∧ are_adjacent g u v = true ∧ mapAt m u ≠ INT_MAX ∧
              mapAt m u + get_edge_weight g u v < mapAt m v
          then mapSet m v (mapAt m u + get_edge_weight g u v) else m) m) y = mapAt m y) ∧
      (∀ y ∈ l, mapAt (l.foldl
        (fun m v =>
          if v ∉ spt' ∧ are_adjacent g u v = true ∧ mapAt m u ≠ INT_MAX ∧
              mapAt m u + get_edge_weight g u v < mapAt m v
          then mapSet m v (mapAt m u + get_edge_weight g u v) else m) m) y =
        if y ∉ spt' ∧ are_adjacent g u y = true ∧ mapAt m u ≠ INT_MAX ∧
            mapAt m u + get_edge_weight g u y < mapAt m y
        then mapAt m u + get_edge_weight g u y else mapAt m y) := by
  intro l
  induction l with
  | nil =>
      intro m _ _
      exact ⟨rfl, rfl, fun y _ => rfl, fun y hy => absurd hy (List.not_mem_nil y)⟩
  | cons v l ih =>
      intro m hn hkeys
      have hvk : v ∈ mapKeys m := hkeys v (by simp)
      have hvnl : v ∉ l := (List.nodup_cons.1 hn).1
      rw [List.foldl_cons]
      by_cases hc : v ∉ spt' ∧ are_adjacent g u v = true ∧ mapAt m u ≠ INT_MAX ∧
          mapAt m u + get_edge_weight g u v < mapAt m v
      · rw [if_pos hc]
        have hvu : v ≠ u := fun h => hc.1 (h ▸ hus)
        have hmu1 : mapAt (mapSet m v (mapAt m u + get_edge_weight g u v)) u = mapAt m u :=
          mapAt_mapSet_ne m v u _ (Ne.symm hvu)
        have hm1v : mapAt (mapSet m v (mapAt m u + get_edge_weight g u v)) v =
            mapAt m u + get_edge_weight g u v := mapAt_mapSet_self m v _
        have hm1y : ∀ y, y ≠ v →
            mapAt (mapSet m v (mapAt m u + get_edge_weight g u v)) y = mapAt m y :=
          fun y hy => mapAt_mapSet_ne m v y _ hy
        have hk1 : mapKeys (mapSet m v (mapAt m u + get_edge_weight g u v)) = mapKeys m :=
          mapKeys_mapSet m v _ hvk
        obtain ⟨ihk, ihu, ihout, ihin⟩ := ih (mapSet m v (mapAt m u + get_edge_weight g u v))
          (List.nodup_cons.1 hn).2
          (fun x hx => by rw [hk1]; exact hkeys x (List.mem_cons_of_mem v hx))
        refine ⟨by rw [ihk, hk1], by rw [ihu, hmu1], ?_, ?_⟩
        · intro y hy
          have hyv : y ≠ v := fun h => hy (by rw [h]; simp)
          have hyl : y ∉ l := fun h => hy (List.mem_cons_of_mem v h)
          rw [ihout y hyl, hm1y y hyv]
        · intro y hy
          rcases List.mem_cons.1 hy with rfl | hy'
          · rw [ihout y hvnl, hm1v, if_pos hc]
          · have hyv : y ≠ v := fun h => hvnl (h ▸ hy')
            rw [ihin y hy']
            simp only [hmu1, hm1y y hyv]
      · rw [if_neg hc]
        obtain ⟨ihk, ihu, ihout, ihin⟩ := ih m (List.nodup_cons.1 hn).2
          (fun x hx => hkeys x (List.mem_cons_of_mem v hx))
        refine ⟨ihk, ihu, ?_, ?_⟩
        · intro y hy
          exact ihout y (fun h => hy (List.mem_cons_of_mem v h))
        · intro y hy
          rcases List.mem_cons.1 hy with rfl | hy'
          · rw [ihout y hvnl, if_neg hc]
          · exact ihin y hy'

theorem dijkstraStep_spec (g : weighted_graph) (st : DMap × Finset Nat) (u : Nat)
    (h : min_distance g st.1 st.2 = some u) (hn : g.verts.Nodup)
    (hkeys : ∀ v ∈ g.verts, v ∈ mapKeys st.1) :
    (dijkstraStep g st).2 = insert u st.2 ∧
    mapKeys (dijkstraStep g st).1 = mapKeys st.1 ∧
    (∀ y, y ∉ g.verts → mapAt (dijkstraStep g st).1 y = mapAt st.1 y) ∧
    (∀ y ∈ g.verts, mapAt (dijkstraStep g st).1 y =
      if y ∉ insert u st.2 ∧ are_adjacent g u y = true ∧ mapAt st.1 u ≠ INT_MAX ∧
          mapAt st.1 u + get_edge_weight g u y < mapAt st.1 y
      then mapAt st.1 u + get_edge_weight g u y else mapAt st.1 y) := by
  obtain ⟨hk, hu, hout, hin⟩ := relax_fold_spec g u (insert u st.2)
    (Finset.mem_insert_self u st.2) g.verts st.1 hn hkeys
  unfold dijkstraStep
  rw [h]
  exact ⟨rfl, hk, hout, hin⟩

theorem dijkstraLoop_basic (g : weighted_graph) (s : Nat) (hn : g.verts.Nodup) :
    ∀ k, k ≤ g.verts.length →
      (∀ v ∈ g.verts, v ∈ mapKeys (dijkstraLoop g s k).1 ∧
        mapAt (dijkstraLoop g s k).1 v ≤ INT_MAX) ∧
      (dijkstraLoop g s k).2 ⊆ g.verts.toFinset ∧
      (dijkstraLoop g s k).2.card = k ∧
      (k < g.verts.length →
        ∃ u, min_distance g (dijkstraLoop g s k).1 (dijkstraLoop g s k).2 = some u) := by
  intro k
  induction k with
  | zero =>
      intro _
      refine ⟨dijkstraInit_le g s hn, by simp [dijkstraLoop], by simp [dijkstraLoop], ?_⟩
      intro hpos
      have hne : g.verts ≠ [] := by
        intro h
        rw [h] at hpos
        simp at hpos
      obtain ⟨v, hv⟩ := List.exists_mem_of_ne_nil g.verts hne
      obtain ⟨_, hle⟩ := dijkstraInit_le g s hn v hv
      exact min_distance_some g _ _ ⟨v, hv, by simp [dijkstraLoop], by simpa [dijkstraLoop] using hle⟩
  | succ k ih =>
      intro hk1
      obtain ⟨ihkeys, ihsub, ihcard, ihmd⟩ := ih (Nat.le_of_succ_le hk1)
      obtain ⟨u, hmd⟩ := ihmd (Nat.lt_of_succ_le hk1)
      obtain ⟨huns, hug, _⟩ := min_distance_spec g _ _ u hmd
      have hstep := dijkstraStep_spec g (dijkstraLoop g s k) u hmd hn
        (fun v hv => (ihkeys v hv).1)
      obtain ⟨hspt, hk, hout, hin⟩ := hstep
      have hloop : dijkstraLoop g s (k + 1) = dijkstraStep g (dijkstraLoop g s k) := rfl
      refine ⟨?_, ?_, ?_, ?_⟩
      · intro v hv
        rw [hloop]
        constructor
        · rw [hk]
          exact (ihkeys v hv).1
        · rw [hin v hv]
          by_cases hc : v ∉ insert u (dijkstraLoop g s k).2 ∧ are_adjacent g u v = true ∧
              mapAt (dijkstraLoop g s k).1 u ≠ INT_MAX ∧
              mapAt (dijkstraLoop g s k).1 u + get_edge_weight g u v <
                mapAt (dijkstraLoop g s k).1 v
          · rw [if_pos hc]
            have := (ihkeys v hv).2
            omega
          · rw [if_neg hc]
            exact (ihkeys v hv).2
      · rw [hloop, hspt]
        intro x hx
        rcases Finset.mem_insert.1 hx with rfl | hx'
        · exact List.mem_toFinset.2 hug
        · exact ihsub hx'
      · rw [hloop, hspt, Finset.card_insert_of_not_mem huns, ihcard]
      · intro hlt
        have hcard' : (dijkstraLoop g s (k + 1)).2.card = k + 1 := by
          rw [hloop, hspt, Finset.card_insert_of_not_mem huns, ihcard]
        have hsub' : (dijkstraLoop g s (k + 1)).2 ⊆ g.verts.toFinset := by
          rw [hloop, hspt]
          intro x hx
          rcases Finset.mem_insert.1 hx with rfl | hx'
          · exact List.mem_toFinset.2 hug
          · exact ihsub hx'
        have hss : (dijkstraLoop g s (k + 1)).2 ⊂ g.verts.toFinset := by
          rw [Finset.ssubset_iff_subset_ne]
          refine ⟨hsub', ?_⟩
          intro heq
          rw [heq] at hcard'
          rw [List.toFinset_card_of_nodup hn] at hcard'
          omega
        obtain ⟨v, hvf, hvs⟩ := Finset.exists_of_ssubset hss
        refine min_distance_some g _ _ ⟨v, List.mem_toFinset.1 hvf, hvs, ?_⟩
        have hv := List.mem_toFinset.1 hvf
        rw [hloop]
        rw [hin v hv]
        by_cases hc : v ∉ insert u (dijkstraLoop g s k).2 ∧ are_adjacent g u v = true ∧
            mapAt (dijkstraLoop g s k).1 u ≠ INT_MAX ∧
            mapAt (dijkstraLoop g s k).1 u + get_edge_weight g u v <
              mapAt (dijkstraLoop g s k).1 v
        · rw [if_pos hc]
          have := (ihkeys v hv).2
          omega
        · rw [if_neg hc]
          exact (ihkeys v hv).2

/-- C9: on a non-empty well-formed graph every call `min_distance` makes from
the main loop of `dijkstras` fires its scan at least once, so `min_vertex` is
assigned and never returned uninitialised (`none` in the model); moreover after
`i` iterations the shortest-path-tree set contains exactly `i` vertices, all of
them vertices of the graph. -/
theorem C9_min_distance_assigned (g : weighted_graph) (s : Nat)
    (hwf : GraphWF g) (_hne : g.verts ≠ []) :
    (∀ o ∈ dijkstraSelections g s, o ≠ none) ∧
    (∀ i, i ≤ num_vertices g →
      (dijkstraLoop g s i).2.card = i ∧ (dijkstraLoop g s i).2 ⊆ g.verts.toFinset) := by
  constructor
  · intro o ho
    unfold dijkstraSelections at ho
    rw [List.mem_map] at ho
    obtain ⟨i, hi, rfl⟩ := ho
    rw [List.mem_range] at hi
    obtain ⟨_, _, _, hmd⟩ := dijkstraLoop_basic g s hwf.1 i (Nat.le_of_lt hi)
    obtain ⟨u, hu⟩ := hmd hi
    rw [hu]
    simp
  · intro i hi
    obtain ⟨_, hsub, hcard, _⟩ := dijkstraLoop_basic g s hwf.1 i hi
    exact ⟨hcard, hsub⟩

/-- Witness for C9 at the spec's triangle scenario with source 0. -/
theorem C9_min_distance_assigned_witness :
    GraphWF exGtri ∧ exGtri.verts ≠ [] ∧
    ((∀ o ∈ dijkstraSelections exGtri 0, o ≠ none) ∧
      (∀ i, i ≤ num_vertices exGtri →
        (dijkstraLoop exGtri 0 i).2.card = i ∧
          (dijkstraLoop exGtri 0 i).2 ⊆ exGtri.verts.toFinset)) :=
  ⟨by decide, by decide, C9_min_distance_assigned exGtri 0 (by decide) (by decide)⟩

theorem md_fold_eq_last_min (dij : DMap) (spt : Finset Nat) :
    ∀ (l : List Nat) (m : Int) (o : Option Nat),
      (o = none → m = INT_MAX) →
      (∀ u, o = some u → m = mapAt dij u) →
      (∀ v ∈ l, mapAt dij v ≤ INT_MAX) →
      ((l.foldl (fun (acc : Int × Option Nat) v =>
          if v ∉ spt ∧ mapAt dij v ≤ acc.1 then (mapAt dij v, some v) else acc)
          (m, o)).2 =
        (l.filter (fun v => decide (v ∉ spt))).foldl
          (fun acc v =>
            match acc with
            | none => some v
            | some u => if mapAt dij v ≤ mapAt dij u then some v else some u) o) := by
  intro l
  induction l with
  | nil => intro m o _ _ _; rfl
  | cons v l ih =>
      intro m o hnone hsome hle
      rw [List.foldl_cons]
      by_cases hvs : v ∉ spt
      · rw [List.filter_cons_of_pos (by simpa using hvs), List.foldl_cons]
        cases o with
        | none =>
            have hm : m = INT_MAX := hnone rfl
            have hcond : v ∉ spt ∧ mapAt dij v ≤ m := ⟨hvs, by rw [hm]; exact hle v (by simp)⟩
            rw [if_pos hcond]
            exact ih (mapAt dij v) (some v) (by simp)
              (fun u hu => by rw [Option.some.injEq] at hu; rw [hu])
              (fun x hx => hle x (List.mem_cons_of_mem v hx))
        | some u =>
            have hm : m = mapAt dij u := hsome u rfl
            by_cases hcmp : mapAt dij v ≤ mapAt dij u
            · rw [if_pos ⟨hvs, by rw [hm]; exact hcmp⟩]
              have : (match some u with
                  | none => some v
                  | some u => if mapAt dij v ≤ mapAt dij u then some v else some u) = some v := by
                simp [hcmp]
              rw [this]
              exact ih (mapAt dij v) (some v) (by simp)
                (fun w hw => by rw [Option.some.injEq] at hw; rw [hw])
                (fun x hx => hle x (List.mem_cons_of_mem v hx))
            · rw [if_neg (fun hc => hcmp (by rw [← hm]; exact hc.2))]
              have : (match some u with
                  | none => some v
                  | some u => if mapAt dij v ≤ mapAt dij u then some v else some u) = some u := by
                simp [hcmp]
              rw [this]
              exact ih m (some u) hnone hsome
                (fun x hx => hle x (List.mem_cons_of_mem v hx))
      · rw [List.filter_cons_of_neg (by simpa using hvs)]
        rw [if_neg (fun hc => hvs hc.1)]
        exact ih m o hnone hsome (fun x hx => hle x (List.mem_cons_of_mem v hx))

theorem min_distance_eq_last_min (g : weighted_graph) (dij : DMap) (spt : Finset Nat)
    (hle : ∀ v ∈ g.verts, mapAt dij v ≤ INT_MAX) :
    min_distance g dij spt = last_min_vertex g dij spt := by
  unfold min_distance last_min_vertex
  exact md_fold_eq_last_min dij spt g.verts INT_MAX none (fun _ => rfl) (by simp) hle

/-- C5 counterexample: on the edgeless three-vertex graph with source 0, at the
second iteration both remaining vertices are at the infinite distance; the code
selects vertex 2 (the last qualifying vertex) while the claim's first-vertex
tie-break would select vertex 1, and the full selection order is [0, 2, 1]. -/
theorem C5_counterexample :
    min_distance exGiso (dijkstraLoop exGiso 0 1).1 (dijkstraLoop exGiso 0 1).2 = some 2 ∧
    min_distance_first exGiso (dijkstraLoop exGiso 0 1).1 (dijkstraLoop exGiso 0 1).2 = some 1 ∧
    dijkstraSelections exGiso 0 = [some 0, some 2, some 1] ∧
    (some 2 : Option Nat) ≠ some 1 := by decide

/-- C5 (amended): in every iteration of the main loop of `dijkstras`, the
vertex selected by `min_distance` is, on ties, the LAST vertex in the graph's
native enumeration order attaining the minimum current distance (the scan's
`<=` comparison lets later equal-distance vertices replace the running winner). -/
theorem C5_selection_last_tie (g : weighted_graph) (s : Nat) (hwf : GraphWF g) :
    ∀ i, i < num_vertices g →
      min_distance g (dijkstraLoop g s i).1 (dijkstraLoop g s i).2 =
        last_min_vertex g (dijkstraLoop g s i).1 (dijkstraLoop g s i).2 := by
  intro i hi
  obtain ⟨hkeys, _, _, _⟩ := dijkstraLoop_basic g s hwf.1 i (Nat.le_of_lt hi)
  exact min_distance_eq_last_min g _ _ (fun v hv => (hkeys v hv).2)

/-- Witness for C5's amended statement at the edgeless three-vertex graph. -/
theorem C5_selection_last_tie_witness :
    GraphWF exGiso ∧ 1 < num_vertices exGiso ∧
    (min_distance exGiso (dijkstraLoop exGiso 0 1).1 (dijkstraLoop exGiso 0 1).2 =
      last_min_vertex exGiso (dijkstraLoop exGiso 0 1).1 (dijkstraLoop exGiso 0 1).2) :=
  ⟨by decide, by decide, C5_selection_last_tie exGiso 0 (by decide) 1 (by decide)⟩

/-! ### State-passing translations: the caller's graph is never mutated -/

theorem ap_st_fold (g : weighted_graph) :
    ∀ (l : List Nat) (r : List Nat),
      (l.foldl
        (fun (acc : List Nat × weighted_graph) v =>
          let test_graph := remove_vertex acc.2 v
          if is_connected test_graph then acc else (acc.1 ++ [v], acc.2))
        (r, g)) =
      (r ++ l.filter (fun v => !is_connected (remove_vertex g v)), g) := by
  intro l
  induction l with
  | nil => intro r; simp
  | cons v l ih =>
      intro r
      rw [List.foldl_cons]
      by_cases hc : is_connected (remove_vertex g v) = true
      · simp only [hc, if_true]
        rw [ih r, List.filter_cons_of_neg (by simp [hc])]
      · have hc' : is_connected (remove_vertex g v) = false := by
          revert hc
          cases is_connected (remove_vertex g v) <;> simp
        simp only [hc', if_false, Bool.false_eq_true]
        rw [ih (r ++ [v]), List.filter_cons_of_pos (by simp [hc'])]
        simp

theorem ap_st_spec (g : weighted_graph) :
    articulation_points_st g = (articulation_points g, g) := by
  unfold articulation_points_st articulation_points
  rw [ap_st_fold g g.verts []]
  rfl

theorem dij_st_init_fold (g : weighted_graph) :
    ∀ (l : List Nat) (m : DMap),
      (l.foldl (fun (acc : DMap × weighted_graph) x => (mapInsert acc.1 x INT_MAX, acc.2))
        (m, g)) =
      (l.foldl (fun m x => mapInsert m x INT_MAX) m, g) := by
  intro l
  induction l with
  | nil => intro m; rfl
  | cons x l ih => intro m; rw [List.foldl_cons, List.foldl_cons]; exact ih _

theorem dij_st_main_fold (g : weighted_graph) :
    ∀ (l : List Nat) (st : DMap × Finset Nat),
      (l.foldl (fun (acc : (DMap × Finset Nat) × weighted_graph) _ =>
        (dijkstraStep acc.2 acc.1, acc.2)) (st, g)) =
      (l.foldl (fun st _ => dijkstraStep g st) st, g) := by
  intro l
  induction l with
  | nil => intro st; rfl
  | cons x l ih => intro st; rw [List.foldl_cons, List.foldl_cons]; exact ih _

theorem dij_fold_eq_loop (g : weighted_graph) (s : Nat) :
    ∀ (l : List Nat),
      l.foldl (fun st _ => dijkstraStep g st) (dijkstraInit g s, (∅ : Finset Nat)) =
        (dijkstraStep g)^[l.length] (dijkstraInit g s, ∅) := by
  suffices h : ∀ (l : List Nat) (st : DMap × Finset Nat),
      l.foldl (fun st _ => dijkstraStep g st) st = (dijkstraStep g)^[l.length] st by
    intro l
    exact h l _
  intro l
  induction l with
  | nil => intro st; rfl
  | cons x l ih =>
      intro st
      rw [List.foldl_cons, List.length_cons, Function.iterate_succ_apply]
      exact ih _

theorem dijkstraLoop_eq_iterate (g : weighted_graph) (s : Nat) :
    ∀ k, dijkstraLoop g s k = (dijkstraStep g)^[k] (dijkstraInit g s, ∅) := by
  intro k
  induction k with
  | zero => rfl
  | succ k ih =>
      show dijkstraStep g (dijkstraLoop g s k) = _
      rw [ih, Function.iterate_succ_apply']

theorem dij_st_spec (g : weighted_graph) (s : Nat) :
    dijkstras_st g s = (dijkstras g s, g) := by
  unfold dijkstras_st
  rw [dij_st_init_fold g g.verts []]
  simp only
  rw [dij_st_main_fold]
  simp only
  unfold dijkstras
  have hinit : (if is_empty g = true then
      List.foldl (fun m x => mapInsert m x INT_MAX) [] g.verts
    else mapSet (List.foldl (fun m x => mapInsert m x INT_MAX) [] g.verts) s 0) =
      dijkstraInit g s := rfl
  rw [hinit, dij_fold_eq_loop g s g.verts, dijkstraLoop_eq_iterate g s]
  rfl

theorem cc_st_fold (g : weighted_graph) :
    ∀ (l : List Nat) (visited : Finset Nat) (pre : List weighted_graph),
      (l.foldl
        (fun (acc : (List weighted_graph × Finset Nat) × weighted_graph) u =>
          if u ∈ acc.1.2 then acc
          else ((acc.1.1 ++ [buildComponent acc.2 (depth_first acc.2 u)],
                 acc.1.2 ∪ depth_first acc.2 u), acc.2))
        ((pre, visited), g)).1.1 = pre ++ ccLoop g l visited ∧
      (l.foldl
        (fun (acc : (List weighted_graph × Finset Nat) × weighted_graph) u =>
          if u ∈ acc.1.2 then acc
          else ((acc.1.1 ++ [buildComponent acc.2 (depth_first acc.2 u)],
                 acc.1.2 ∪ depth_first acc.2 u), acc.2))
        ((pre, visited), g)).2 = g := by
  intro l
  induction l with
  | nil => intro visited pre; simp [ccLoop]
  | cons u l ih =>
      intro visited pre
      rw [List.foldl_cons]
      simp only [ccLoop]
      by_cases hu : u ∈ visited
      · rw [if_pos hu, if_pos hu]
        exact ih visited pre
      · rw [if_neg hu, if_neg hu]
        obtain ⟨ih1, ih2⟩ := ih (visited ∪ depth_first g u)
          (pre ++ [buildComponent g (depth_first g u)])
        rw [ih1, ih2]
        simp

theorem cc_st_spec (g : weighted_graph) :
    connected_components_st g = (connected_components g, g) := by
  unfold connected_components_st connected_components
  obtain ⟨h1, h2⟩ := cc_st_fold g g.verts ∅ []
  rw [Prod.ext_iff]
  exact ⟨by rw [h1]; rfl, h2⟩

/-- C7: every exposed operation leaves the caller's graph unchanged — in the
state-passing translation each returns the input graph as the output state, and
`articulation_points` removes vertices only from its internally created copies
while computing the same result as the pure function. -/
theorem C7_no_caller_mutation (g : weighted_graph) (s : Nat) :
    is_empty_st g = (is_empty g, g) ∧
    is_connected_st g = (is_connected g, g) ∧
    connected_components_st g = (connected_components g, g) ∧
    dijkstras_st g s = (dijkstras g s, g) ∧
    articulation_points_st g = (articulation_points g, g) :=
  ⟨rfl, rfl, cc_st_spec g, dij_st_spec g s, ap_st_spec g⟩

/-- C8: calling `dijkstras` twice on the same unmutated graph yields identical
maps, and calling `articulation_points` twice yields identical lists in the same
order — the second call runs on the state left by the first. -/
theorem C8_repeated_calls_identical (g : weighted_graph) (s : Nat) :
    (dijkstras_st ((dijkstras_st g s).2) s).1 = (dijkstras_st g s).1 ∧
    (articulation_points_st ((articulation_points_st g).2)).1 =
      (articulation_points_st g).1 := by
  constructor
  · rw [dij_st_spec g s]
    simp only
    rw [dij_st_spec g s]
  · rw [ap_st_spec g]
    simp only
    rw [ap_st_spec g]

/-! ### Dijkstra invariants: realizability, frontier monotonicity, edge stability -/

theorem dijkstraLoop_inv (g : weighted_graph) (s : Nat) (hwf : GraphWF g)
    (hw : ∀ e ∈ g.edges, 0 ≤ e.2.2) (hs : s ∈ g.verts) :
    ∀ k, k ≤ g.verts.length →
      (mapAt (dijkstraLoop g s k).1 s ≤ 0) ∧
      (∀ v ∈ g.verts, mapAt (dijkstraLoop g s k).1 v = INT_MAX ∨
        ∃ l, IsWalk g s v l ∧ walkWeight g l = mapAt (dijkstraLoop g s k).1 v) ∧
      (∀ u ∈ (dijkstraLoop g s k).2, ∀ z ∈ g.verts, z ∉ (dijkstraLoop g s k).2 →
        mapAt (dijkstraLoop g s k).1 u ≤ mapAt (dijkstraLoop g s k).1 z) ∧
      (∀ u ∈ (dijkstraLoop g s k).2, ∀ v ∈ g.verts, are_adjacent g u v = true →
        mapAt (dijkstraLoop g s k).1 u ≠ INT_MAX →
        mapAt (dijkstraLoop g s k).1 v ≤
          mapAt (dijkstraLoop g s k).1 u + get_edge_weight g u v) := by
  intro k
  induction k with
  | zero =>
      intro _
      have hinit := dijkstraInit_at g s hwf.1 hs
      have hspt : (dijkstraLoop g s 0).2 = ∅ := rfl
      have hdij : (dijkstraLoop g s 0).1 = dijkstraInit g s := rfl
      refine ⟨?_, ?_, ?_, ?_⟩
      · rw [hdij, hinit s hs, if_pos rfl]
      · intro v hv
        rw [hdij, hinit v hv]
        by_cases hvs : v = s
        · subst hvs
          rw [if_pos rfl]
          exact Or.inr ⟨[v], isWalk_singleton g v hv, rfl⟩
        · rw [if_neg hvs]
          exact Or.inl rfl
      · intro u hu
        rw [hspt] at hu
        exact absurd hu (Finset.not_mem_empty u)
      · intro u hu
        rw [hspt] at hu
        exact absurd hu (Finset.not_mem_empty u)
  | succ k ih =>
      intro hk1
      have hkn : k < g.verts.length := Nat.lt_of_succ_le hk1
      obtain ⟨hI3, hI4, hI5, hI6⟩ := ih (Nat.le_of_lt hkn)
      obtain ⟨hkeys, hsub, _, hmd⟩ := dijkstraLoop_basic g s hwf.1 k (Nat.le_of_lt hkn)
      obtain ⟨u, hu⟩ := hmd hkn
      obtain ⟨huns, hug, hargmin⟩ := min_distance_spec g _ _ u hu
      obtain ⟨hspt, _, hout, hin⟩ := dijkstraStep_spec g (dijkstraLoop g s k) u hu hwf.1
        (fun v hv => (hkeys v hv).1)
      have hloop : dijkstraLoop g s (k + 1) = dijkstraStep g (dijkstraLoop g s k) := rfl
      -- every vertex of the old tree keeps its distance
      have hfrozen : ∀ y ∈ insert u (dijkstraLoop g s k).2, y ∈ g.verts →
          mapAt (dijkstraLoop g s (k + 1)).1 y = mapAt (dijkstraLoop g s k).1 y := by
        intro y hy hyg
        rw [hloop, hin y hyg, if_neg]
        intro hc
        exact hc.1 hy
      have huverts : u ∈ g.verts := hug
      have hufro : mapAt (dijkstraLoop g s (k + 1)).1 u = mapAt (dijkstraLoop g s k).1 u :=
        hfrozen u (Finset.mem_insert_self u _) huverts
      have hw0 : ∀ a b : Nat, 0 ≤ get_edge_weight g a b := get_edge_weight_nonneg g hw
  
      refine ⟨?_, ?_, ?_, ?_⟩
      · -- the source keeps a non-positive distance
        rw [hloop, hin s hs]
        by_cases hc : s ∉ insert u (dijkstraLoop g s k).2 ∧ are_adjacent g u s = true ∧
            mapAt (dijkstraLoop g s k).1 u ≠ INT_MAX ∧
            mapAt (dijkstraLoop g s k).1 u + get_edge_weight g u s <
              mapAt (dijkstraLoop g s k).1 s
        · rw [if_pos hc]
          have := hc.2.2.2
          omega
        · rw [if_neg hc]
          exact hI3
      · -- realizability
        intro v hv
        rw [hloop, hin v hv]
        by_cases hc : v ∉ insert u (dijkstraLoop g s k).2 ∧ are_adjacent g u v = true ∧
            mapAt (dijkstraLoop g s k).1 u ≠ INT_MAX ∧
            mapAt (dijkstraLoop g s k).1 u + get_edge_weight g u v <
              mapAt (dijkstraLoop g s k).1 v
        · rw [if_pos hc]
          rcases hI4 u huverts with hinf | ⟨l, hl, hwt⟩
          · exact absurd hinf hc.2.2.1
          · right
            refine ⟨l ++ [v], isWalk_snoc g s u v l hl hc.2.1 hv, ?_⟩
            rw [walkWeight_snoc g v l u hl.2.2, hwt]
        · rw [if_neg hc]
          exact hI4 v hv
      · -- processed distances stay below unprocessed ones
        intro y hy z hz hzs
        rw [hloop, hspt] at hy hzs
        have hyg : y ∈ g.verts := by
          rcases Finset.mem_insert.1 hy with rfl | hy'
          · exact huverts
          · exact List.mem_toFinset.1 (hsub hy')
        rw [hfrozen y hy hyg]
        have hyle : mapAt (dijkstraLoop g s k).1 y ≤ mapAt (dijkstraLoop g s k).1 u := by
          rcases Finset.mem_insert.1 hy with rfl | hy'
          · exact le_refl _
          · exact hI5 y hy' u huverts huns
        have hzns : z ∉ (dijkstraLoop g s k).2 := fun h => hzs (Finset.mem_insert_of_mem h)
        rw [hloop, hin z hz]
        by_cases hc : z ∉ insert u (dijkstraLoop g s k).2 ∧ are_adjacent g u z = true ∧
            mapAt (dijkstraLoop g s k).1 u ≠ INT_MAX ∧
            mapAt (dijkstraLoop g s k).1 u + get_edge_weight g u z <
              mapAt (dijkstraLoop g s k).1 z
        · rw [if_pos hc]
          have := hw0 u z
          omega
        · rw [if_neg hc]
          rcases Finset.mem_insert.1 hy with rfl | hy'
          · exact hargmin z hz hzns
          · exact hI5 y hy' z hz hzns
      · -- edge stability
        intro y hy v hv hadj hyninf
        rw [hloop, hspt] at hy
        have hyg : y ∈ g.verts := by
          rcases Finset.mem_insert.1 hy with rfl | hy'
          · exact huverts
          · exact List.mem_toFinset.1 (hsub hy')
        rw [hfrozen y hy hyg] at hyninf ⊢
        by_cases hvs : v ∈ insert u (dijkstraLoop g s k).2
        · -- v is processed: its distance is frozen and already below
          rw [hfrozen v hvs hv]
          rcases Finset.mem_insert.1 hy with hyu | hy'
          · rw [hyu] at hyninf ⊢
            rcases Finset.mem_insert.1 hvs with hvu | hvs'
            · rw [hvu]
              have := hw0 u u
              omega
            · have h1 : mapAt (dijkstraLoop g s k).1 v ≤ mapAt (dijkstraLoop g s k).1 u :=
                hI5 v hvs' u huverts huns
              have := hw0 u v
              omega
          · exact hI6 y hy' v hv hadj hyninf
        · -- v is unprocessed: it was just relaxed (or was already below)
          rw [hloop, hin v hv]
          by_cases hc : v ∉ insert u (dijkstraLoop g s k).2 ∧ are_adjacent g u v = true ∧
              mapAt (dijkstraLoop g s k).1 u ≠ INT_MAX ∧
              mapAt (dijkstraLoop g s k).1 u + get_edge_weight g u v <
                mapAt (dijkstraLoop g s k).1 v
          · rw [if_pos hc]
            rcases Finset.mem_insert.1 hy with rfl | hy'
            · exact le_refl _
            · have h1 : mapAt (dijkstraLoop g s k).1 u + get_edge_weight g u v <
                  mapAt (dijkstraLoop g s k).1 v := hc.2.2.2
              have h2 : mapAt (dijkstraLoop g s k).1 v ≤
                  mapAt (dijkstraLoop g s k).1 y + get_edge_weight g y v :=
                hI6 y hy' v hv hadj hyninf
              omega
          · rw [if_neg hc]
            rcases Finset.mem_insert.1 hy with rfl | hy'
            · -- y = u and the relaxation guard failed only on the comparison
              push_neg at hc
              have := hc (fun h => hvs h) hadj hyninf
              omega
            · exact hI6 y hy' v hv hadj hyninf

theorem dijkstras_final_spt (g : weighted_graph) (s : Nat) (hn : g.verts.Nodup) :
    (dijkstraLoop g s g.verts.length).2 = g.verts.toFinset := by
  obtain ⟨_, hsub, hcard, _⟩ := dijkstraLoop_basic g s hn g.verts.length (le_refl _)
  apply Finset.eq_of_subset_of_card_le hsub
  rw [List.toFinset_card_of_nodup hn, hcard]

theorem dijkstras_upper (g : weighted_graph) (s : Nat) (hwf : GraphWF g)
    (hw : ∀ e ∈ g.edges, 0 ≤ e.2.2) (hs : s ∈ g.verts)
    (hb : (g.verts.length : Int) * maxWeight g < INT_MAX) :
    ∀ (n : Nat) (l : List Nat) (v : Nat), l.length ≤ n → l.Nodup → IsWalk g s v l →
      mapAt (dijkstras g s) v ≤ walkWeight g l := by
  have hD : dijkstras g s = (dijkstraLoop g s g.verts.length).1 := rfl
  obtain ⟨hI3, hI4, hI5, hI6⟩ := dijkstraLoop_inv g s hwf hw hs g.verts.length (le_refl _)
  have hsptf := dijkstras_final_spt g s hwf.1
  intro n
  induction n with
  | zero =>
      intro l v hlen _ hwalk
      rw [List.length_eq_zero.1 (Nat.le_zero.1 hlen)] at hwalk
      obtain ⟨_, hh, _⟩ := hwalk
      simp at hh
  | succ n ih =>
      intro l v hlen hnd hwalk
      rcases isWalk_snoc_cases g s v l hwalk with ⟨hls, hvs⟩ | ⟨l', y, hsplit, hl', hadj, hweq⟩
      · rw [hls]
        rw [hvs]
        have h0 : walkWeight g [s] = 0 := rfl
        rw [h0, hD]
        exact hI3
      · have hnd' : l'.Nodup := by
          rw [hsplit] at hnd
          exact hnd.sublist (List.sublist_append_left l' [v])
        have hlen' : l'.length ≤ n := by
          rw [hsplit] at hlen
          simp only [List.length_append, List.length_singleton] at hlen
          omega
        have hyv : y ∈ g.verts := reach_mem_right g s y ⟨l', hl'⟩
        have hvv : v ∈ g.verts := reach_mem_right g s v ⟨l, hwalk⟩
        have hIH := ih l' y hlen' hnd' hl'
        have hwlt : walkWeight g l' < INT_MAX :=
          nodup_walk_weight_lt g hb l' hl'.1 hnd'
        have hyninf : mapAt (dijkstras g s) y ≠ INT_MAX := by omega
        have hstab := hI6 y (by rw [hsptf]; exact List.mem_toFinset.2 hyv) v hvv hadj
          (by rw [hD] at hyninf; exact hyninf)
        rw [hD]
        rw [hD] at hIH
        have hwge : get_edge_weight g y v ≤ get_edge_weight g y v := le_refl _
        rw [hweq]
        omega

/-- C1 (amended): for a well-formed graph with non-negative edge weights whose
vertex count times maximum edge weight stays below `INT_MAX`, `dijkstras(g, s)`
assigns to every vertex reachable from the source the minimum total weight over
all paths from the source (the minimum is attained and no path is cheaper), and
assigns the sentinel `INT_MAX` to every unreachable vertex. -/
theorem C1_dijkstras_shortest (g : weighted_graph) (s : Nat) (hwf : GraphWF g)
    (hw : ∀ e ∈ g.edges, 0 ≤ e.2.2) (hs : s ∈ g.verts)
    (hb : (g.verts.length : Int) * maxWeight g < INT_MAX) :
    ∀ t ∈ g.verts,
      ((∃ l, IsWalk g s t l) →
        (∃ l, IsWalk g s t l ∧ walkWeight g l = mapAt (dijkstras g s) t) ∧
        ∀ l, IsWalk g s t l → mapAt (dijkstras g s) t ≤ walkWeight g l) ∧
      ((¬ ∃ l, IsWalk g s t l) → mapAt (dijkstras g s) t = INT_MAX) := by
  intro t ht
  have hD : dijkstras g s = (dijkstraLoop g s g.verts.length).1 := rfl
  obtain ⟨_, hI4, _, _⟩ := dijkstraLoop_inv g s hwf hw hs g.verts.length (le_refl _)
  have hupper := dijkstras_upper g s hwf hw hs hb
  constructor
  · rintro ⟨l0, hl0⟩
    have hmin : ∀ l, IsWalk g s t l → mapAt (dijkstras g s) t ≤ walkWeight g l := by
      intro l hl
      obtain ⟨l', hl', hnd, hle⟩ := walk_shorten g hw s t l hl
      exact le_trans (hupper l'.length l' t (le_refl _) hnd hl') hle
    refine ⟨?_, hmin⟩
    obtain ⟨l0', h0', hnd0, _⟩ := walk_shorten g hw s t l0 hl0
    have h1 : mapAt (dijkstras g s) t ≤ walkWeight g l0' :=
      hupper l0'.length l0' t (le_refl _) hnd0 h0'
    have h2 : walkWeight g l0' < INT_MAX := nodup_walk_weight_lt g hb l0' h0'.1 hnd0
    have hne : mapAt (dijkstras g s) t ≠ INT_MAX := by omega
    rcases hI4 t ht with hinf | ⟨l, hl, hwt⟩
    · rw [hD] at hne
      exact absurd hinf hne
    · rw [← hD] at hwt
      exact ⟨l, hl, hwt⟩
  · intro hno
    rcases hI4 t ht with hinf | ⟨l, hl, _⟩
    · rw [hD]
      exact hinf
    · exact absurd ⟨l, hl⟩ hno

/-- Witness for C1's amended statement at the spec's triangle scenario. -/
theorem C1_dijkstras_shortest_witness :
    GraphWF exGtri ∧ (∀ e ∈ exGtri.edges, 0 ≤ e.2.2) ∧ 0 ∈ exGtri.verts ∧
    ((exGtri.verts.length : Int) * maxWeight exGtri < INT_MAX) ∧ 2 ∈ exGtri.verts ∧
    (((∃ l, IsWalk exGtri 0 2 l) →
        (∃ l, IsWalk exGtri 0 2 l ∧ walkWeight exGtri l = mapAt (dijkstras exGtri 0) 2) ∧
        ∀ l, IsWalk exGtri 0 2 l → mapAt (dijkstras exGtri 0) 2 ≤ walkWeight exGtri l) ∧
      ((¬ ∃ l, IsWalk exGtri 0 2 l) → mapAt (dijkstras exGtri 0) 2 = INT_MAX)) :=
  ⟨by decide, by decide, by decide, by decide, by decide,
    C1_dijkstras_shortest exGtri 0 (by decide) (by decide) (by decide) (by decide) 2 (by decide)⟩

theorem walk_weight_ge_potential (g : weighted_graph) (φ : Nat → Int)
    (hφ : ∀ u v, are_adjacent g u v = true → φ v - φ u ≤ get_edge_weight g u v) :
    ∀ (l : List Nat) (a b : Nat), IsWalk g a b l → φ b - φ a ≤ walkWeight g l := by
  intro l
  induction l with
  | nil => intro a b h; obtain ⟨_, hh, _⟩ := h; simp at hh
  | cons v rest ih =>
      intro a b h
      obtain ⟨hwalk, hh, hl⟩ := h
      simp only [List.head?_cons, Option.some.injEq] at hh
      subst hh
      cases rest with
      | nil =>
          simp only [List.getLast?_singleton, Option.some.injEq] at hl
          subst hl
          simp [walkWeight]
      | cons w rest' =>
          rw [List.getLast?_cons_cons] at hl
          simp only [walkB, Bool.and_eq_true, decide_eq_true_eq] at hwalk
          have htail := ih w b ⟨hwalk.2, rfl, hl⟩
          have hedge := hφ v w hwalk.1.2
          simp only [walkWeight]
          omega

/-- C1 counterexample: in `exGov` the vertex 2 is reachable from 0, every path
from 0 to 2 weighs at least `INT_MAX + 1` (and one attains it), yet
`dijkstras(exGov, 0)` reports the sentinel `INT_MAX` for it — the reported
value is not the minimum path weight, refuting the claim as stated. -/
theorem C1_counterexample :
    IsWalk exGov 0 2 [0, 1, 2] ∧
    walkWeight exGov [0, 1, 2] = INT_MAX + 1 ∧
    (∀ l, IsWalk exGov 0 2 l → INT_MAX + 1 ≤ walkWeight exGov l) ∧
    mapAt (dijkstras exGov 0) 2 = INT_MAX ∧
    INT_MAX ≠ INT_MAX + 1 := by
  refine ⟨⟨by decide, by decide, by decide⟩, by decide, ?_, by decide, by decide⟩
  intro l hl
  have hφ : ∀ u v, are_adjacent exGov u v = true →
      (fun n => if n = 0 then 0 else if n = 1 then INT_MAX - 1 else INT_MAX + 1 : Nat → Int) v -
        (fun n => if n = 0 then 0 else if n = 1 then INT_MAX - 1 else INT_MAX + 1 : Nat → Int) u ≤
        get_edge_weight exGov u v := by
    intro u v hadj
    simp only [are_adjacent, exGov, List.any_cons, List.any_nil, Bool.or_false,
      Bool.or_eq_true, samePair, Bool.and_eq_true, beq_iff_eq] at hadj
    rcases hadj with (⟨h1, h2⟩ | ⟨h1, h2⟩) | (⟨h1, h2⟩ | ⟨h1, h2⟩) <;>
      (subst h1; subst h2; decide)
  have := walk_weight_ge_potential exGov
    (fun n => if n = 0 then 0 else if n = 1 then INT_MAX - 1 else INT_MAX + 1) hφ l 0 2 hl
  norm_num at this
  omega
